import Mathlib

/-!
A shallow embedding of `HierPlace.py`, the hierarchical-placement PCBNEW
plugin, together with proofs about its grouping and packing algorithms.

Geometry: PCBNEW's `EDA_RECT`/`wxPoint` are external collaborators of the
plugin; they are modelled as axis-aligned integer rectangles in the screen
convention (`y` grows downward, so `top ≤ bottom` for a normalized box),
matching `GetLeft/GetTop/GetRight/GetBottom`, `Inflate`, `Merge`,
`Intersects` (closed-interval overlap: abutting rectangles intersect, which
is why `Module.touches` deflates by one unit), `GetCenter` (integer halving
of the size, as in C++), and `GetWidth/GetHeight/GetArea`.

Hierarchy paths: `Module.hier_level` splits the module's path on `/` and
rejoins all but the last segment.  Since the segments produced by a split
are slash-free, joining is injective, and paths are modelled directly in
split form (`List String`); dropping the final segment is `List.dropLast`.

Mutation: the Python code moves modules in place.  Every operation here
returns the updated value instead, and `pack` threads the tentative module
state through the candidate loop exactly as the in-place code does,
returning the packed members (in placement order) or `none` on the
`best_pt = None` path, where the Python code would pass `None` to
`set_bl_position` and crash.
-/

/-- Extra spacing placed around module bounding boxes (`MODULE_SPACING`). -/
def MODULE_SPACING : Int := 350000

/-- Extra spacing placed around groups of modules (`GROUP_SPACING`). -/
def GROUP_SPACING : Int := 5 * MODULE_SPACING

/-- A `wxPoint`: integer x/y coordinates. -/
abbrev Pt := Int × Int

/-- An `EDA_RECT`, stored by its corner coordinates (y grows downward). -/
structure Rect where
  left : Int
  top : Int
  right : Int
  bottom : Int
deriving DecidableEq

/-- `EDA_RECT.GetWidth`. -/
def Rect.width (r : Rect) : Int := r.right - r.left

/-- `EDA_RECT.GetHeight`. -/
def Rect.height (r : Rect) : Int := r.bottom - r.top

/-- `EDA_RECT.GetArea`. -/
def Rect.area (r : Rect) : Int := r.width * r.height

/-- `EDA_RECT.Inflate d`: grow (or, for negative `d`, shrink) every side. -/
def Rect.inflate (r : Rect) (d : Int) : Rect :=
  ⟨r.left - d, r.top - d, r.right + d, r.bottom + d⟩

/-- `EDA_RECT.Merge`: the envelope of two rectangles. -/
def Rect.merge (r1 r2 : Rect) : Rect :=
  ⟨min r1.left r2.left, min r1.top r2.top, max r1.right r2.right, max r1.bottom r2.bottom⟩

/-- `EDA_RECT.Intersects`: closed-interval overlap on both axes (a shared
edge or corner counts as intersecting, "null accepted" in the C++ source). -/
def Rect.intersects (r1 r2 : Rect) : Bool :=
  decide (max r1.left r2.left ≤ min r1.right r2.right ∧
          max r1.top r2.top ≤ min r1.bottom r2.bottom)

/-- `EDA_RECT.GetCenter`: position plus half the size (C++ integer
division, truncating toward zero). -/
def Rect.center (r : Rect) : Pt :=
  (r.left + Int.tdiv r.width 2, r.top + Int.tdiv r.height 2)

/-- A default-constructed `EDA_RECT` moved to point `p`: zero size at `p`. -/
def Rect.atPoint (p : Pt) : Rect := ⟨p.1, p.2, p.1, p.2⟩

/-- Translation of a rectangle (used to state how boxes follow moves). -/
def Rect.translate (r : Rect) (dx dy : Int) : Rect :=
  ⟨r.left + dx, r.top + dy, r.right + dx, r.bottom + dy⟩

/-- `r1` fully contains `r2`. -/
def Rect.containsR (r1 r2 : Rect) : Prop :=
  r1.left ≤ r2.left ∧ r1.top ≤ r2.top ∧ r2.right ≤ r1.right ∧ r2.bottom ≤ r1.bottom

instance (r1 r2 : Rect) : Decidable (Rect.containsR r1 r2) := by
  unfold Rect.containsR; infer_instance

/-- The data of one PCBNEW module as seen through the `Module` wrapper:
reference id, hierarchical path in split form, the native footprint
rectangle (`GetFootprintRect`, position `(x, y)` and size `(w, h)`), the
selection flag and the lock flag. -/
structure ModuleData where
  ref : String
  path : List String
  x : Int
  y : Int
  w : Int
  h : Int
  selected : Bool
  locked : Bool
deriving DecidableEq

mutual
/-- A `Module` or a `ModuleGroup` (which stores items and acts like one). -/
inductive Item where
  | mod (m : ModuleData)
  | grp (ms : ItemList)

/-- The list of members of a `ModuleGroup`. -/
inductive ItemList where
  | nil
  | cons (head : Item) (tail : ItemList)
end

/-- View a member list as a Lean list. -/
def ItemList.toList : ItemList → List Item
  | .nil => []
  | .cons i is => i :: is.toList

/-- Build a member list from a Lean list. -/
def ItemList.ofList : List Item → ItemList
  | [] => .nil
  | i :: is => .cons i (ItemList.ofList is)

/-- `ModuleGroup.bbox` on the members' boxes: a default `EDA_RECT` is moved
to the first member's center, every member's box is merged in, and the
result is inflated by `GROUP_SPACING`.  (On an empty group the Python code
would raise `IndexError` at `self[0]`; that case is modelled by the same
formula started from the origin and never arises in the algorithm.) -/
def groupBboxOf (rs : List Rect) : Rect :=
  match rs with
  | [] => Rect.inflate (Rect.atPoint (0, 0)) GROUP_SPACING
  | r :: _ =>
    Rect.inflate (rs.foldl Rect.merge (Rect.atPoint r.center)) GROUP_SPACING

mutual
/-- `Module.bbox` / `ModuleGroup.bbox`: a module's footprint inflated by
`MODULE_SPACING`, or the merged-and-inflated box of a group's members. -/
def Item.bbox : Item → Rect
  | .mod m =>
    ⟨m.x - MODULE_SPACING, m.y - MODULE_SPACING,
     m.x + m.w + MODULE_SPACING, m.y + m.h + MODULE_SPACING⟩
  | .grp ms => groupBboxOf (bboxes ms)

/-- Bounding boxes of all members of a group. -/
def bboxes : ItemList → List Rect
  | .nil => []
  | .cons i is => Item.bbox i :: bboxes is
end

/-- `Module.locked` / `ModuleGroup.locked`: a group always reports `False`. -/
def Item.locked : Item → Bool
  | .mod m => m.locked
  | .grp _ => false

mutual
/-- `Module.hier_level` / `ModuleGroup.hier_level`: a module's path with the
last segment dropped; for a group, the first member's level with the last
segment dropped.  (For an empty group the Python code would raise at
`self[0]`; that case is modelled as the empty key and never arises.) -/
def Item.hier_level : Item → List String
  | .mod m => m.path.dropLast
  | .grp ms => headHierOf ms

/-- Hierarchy level contributed by the first member of a group. -/
def headHierOf : ItemList → List String
  | .nil => []
  | .cons i _ => (Item.hier_level i).dropLast
end

/-- `Module.w`. -/
def Item.w (i : Item) : Int := i.bbox.width

/-- `Module.h`. -/
def Item.h (i : Item) : Int := i.bbox.height

/-- `Module.area`: area of the bounding box. -/
def Item.area (i : Item) : Int := i.bbox.area

/-- `Module.center`. -/
def Item.center (i : Item) : Pt := i.bbox.center

/-- `Module.tl_corner`. -/
def Item.tl_corner (i : Item) : Pt := (i.bbox.left, i.bbox.top)

/-- `Module.br_corner`. -/
def Item.br_corner (i : Item) : Pt := (i.bbox.right, i.bbox.bottom)

/-- `Module.bl_corner`. -/
def Item.bl_corner (i : Item) : Pt := (i.bbox.left, i.bbox.bottom)

/-- `Module.touches`: deflate this item's bounding box by one unit (so that
abutting boxes do not count) and intersect it with the other's box.  Note
only the receiver's box is shrunk. -/
def Item.touches (a b : Item) : Bool :=
  Rect.intersects (a.bbox.inflate (-1)) b.bbox

mutual
/-- `Module.move` / `ModuleGroup.move`: translate by `(dx, dy)`; a no-op on
a locked module; a group moves each member (a group is never locked). -/
def Item.move (dx dy : Int) : Item → Item
  | .mod m =>
    if m.locked then .mod m else .mod { m with x := m.x + dx, y := m.y + dy }
  | .grp ms => .grp (moveList dx dy ms)

/-- Move every member of a group. -/
def moveList (dx dy : Int) : ItemList → ItemList
  | .nil => .nil
  | .cons i is => .cons (Item.move dx dy i) (moveList dx dy is)
end

/-- `Module.set_bl_position`: move so the bottom-left corner of the bounding
box lands on `p` (a no-op on a locked item). -/
def Item.set_bl_position (i : Item) (p : Pt) : Item :=
  if i.locked then i
  else Item.move (p.1 - i.bl_corner.1) (p.2 - i.bl_corner.2) i

mutual
/-- All leaf modules stored inside an item (the item itself if a module). -/
def Item.leaves : Item → List ModuleData
  | .mod m => [m]
  | .grp ms => leavesList ms

/-- Leaf modules of a member list. -/
def leavesList : ItemList → List ModuleData
  | .nil => []
  | .cons i is => Item.leaves i ++ leavesList is
end

mutual
/-- An item every part of which actually moves: an unlocked module, or a
nonempty group of movable members.  For such an item `set_bl_position`
really lands the bottom-left corner on its target. -/
def Item.movable : Item → Bool
  | .mod m => !m.locked
  | .grp ms => movableMembers ms

/-- A nonempty list of movable members (`false` on the empty list: an empty
group's box does not follow its members). -/
def movableMembers : ItemList → Bool
  | .nil => false
  | .cons i .nil => Item.movable i
  | .cons i (.cons j js) => Item.movable i && movableMembers (.cons j js)
end

/-- Every leaf module has nonnegative footprint size (always true of the
rectangles PCBNEW hands out). -/
def Item.sizesOK (i : Item) : Prop := ∀ m ∈ i.leaves, 0 ≤ m.w ∧ 0 ≤ m.h

instance (i : Item) : Decidable i.sizesOK := by
  unfold Item.sizesOK; infer_instance

mutual
/-- Erase the reference labels everywhere (the only datum the placement
algorithm never reads). -/
def Item.stripRef : Item → Item
  | .mod m => .mod { m with ref := "" }
  | .grp ms => .grp (stripRefList ms)

/-- Erase reference labels in a member list. -/
def stripRefList : ItemList → ItemList
  | .nil => .nil
  | .cons i is => .cons (Item.stripRef i) (stripRefList is)
end

/-- A hierarchy key: a path in split form. -/
abbrev HierKey := List String

/-- The `groups` dictionary: keys in insertion order, each with its members
in insertion order. -/
abbrev Groups := List (HierKey × List Item)

/-- Append `i` to the group keyed `k`, creating the group at the end on
first use (a Python `defaultdict` preserves key insertion order). -/
def insertInGroup : Groups → HierKey → Item → Groups
  | [], k, i => [(k, [i])]
  | (k', v) :: rest, k, i =>
    if k' = k then (k', v ++ [i]) :: rest
    else (k', v) :: insertInGroup rest k i

/-- `group_modules`: partition the unlocked items by hierarchy level. -/
def group_modules (ms : List Item) : Groups :=
  ms.foldl (fun gs m => if m.locked then gs else insertInGroup gs m.hier_level m) []

/-- Insert into a descending-by-area sorted list, after strictly larger
areas and before equal or smaller ones (so the earlier element of a tie
stays first, as with Python's stable `sorted`). -/
def insertDesc (x : Item) : List Item → List Item
  | [] => [x]
  | y :: ys => if x.area ≥ y.area then x :: y :: ys else y :: insertDesc x ys

/-- `sorted(group, key=lambda m: -m.area)`: stable descending-area sort. -/
def sortDescArea (l : List Item) : List Item := l.foldr insertDesc []

/-- Bounding box of the `packed_modules` group built during `pack`. -/
def packedBbox (l : List Item) : Rect := groupBboxOf (l.map Item.bbox)

/-- The footprint score `size = H + W + |H - W|` of the packed group. -/
def packSize (l : List Item) : Int :=
  (packedBbox l).height + (packedBbox l).width +
    |(packedBbox l).height - (packedBbox l).width|

/-- One update of the running best candidate: `size <= smallest_size` (so a
later candidate wins an exact tie; the initial `smallest_size` is infinite,
modelled by the `none` accumulator accepting any candidate). -/
def tieStep (acc : Option (Pt × Int)) (c : Pt × Int) : Option (Pt × Int) :=
  match acc with
  | none => some c
  | some (q, t) => if c.2 ≤ t then some c else some (q, t)

/-- The candidate loop of `pack`: try every placement point in order,
moving the (mutable) module there tentatively; skip the point if the moved
module touches any already-placed member, otherwise score the group and
keep the best so far.  Returns the module in its last tentative position
together with the best `(point, size)` found. -/
def evalPts (packed : List Item) : Item → List Pt → Option (Pt × Int) → Item × Option (Pt × Int)
  | m, [], acc => (m, acc)
  | m, pt :: rest, acc =>
    let m2 := m.set_bl_position pt
    if packed.any (fun pm => m2.touches pm) then evalPts packed m2 rest acc
    else evalPts packed m2 rest (tieStep acc (pt, packSize (packed ++ [m2])))

/-- The surviving candidates of the loop, in evaluation order, each with
its score (the module state is threaded exactly as in `evalPts`). -/
def survRec (packed : List Item) : Item → List Pt → List (Pt × Int)
  | _, [] => []
  | m, pt :: rest =>
    let m2 := m.set_bl_position pt
    if packed.any (fun pm => m2.touches pm) then survRec packed m2 rest
    else (pt, packSize (packed ++ [m2])) :: survRec packed m2 rest

/-- Python's `list.remove`: drop the first occurrence of `q`. -/
def removeFirst : List Pt → Pt → List Pt
  | [], _ => []
  | p :: ps, q => if p = q then ps else p :: removeFirst ps q

/-- The main loop of `pack` over the area-sorted members: skip locked
members; place the first member unmoved; place each later member at the
best surviving placement point, consume that point, and offer the placed
member's top-left and bottom-right corners as new points.  When no
candidate survives, `best_pt` stays `None` and the Python code would crash
in `set_bl_position`; that path yields `none`. -/
def packGo : List Item → List Item → List Pt → Option (List Item)
  | [], packed, _ => some packed
  | m :: rest, packed, pts =>
    if m.locked then packGo rest packed pts
    else
      match pts with
      | [] => packGo rest (packed ++ [m]) [m.tl_corner, m.br_corner]
      | _ :: _ =>
        match evalPts packed m pts none with
        | (_, none) => none
        | (mt, some (q, _)) =>
          let m2 := mt.set_bl_position q
          packGo rest (packed ++ [m2]) (removeFirst pts q ++ [m2.tl_corner, m2.br_corner])

/-- `pack`: pack a group of modules into a tight formation. -/
def pack (group : List Item) : Option (List Item) :=
  packGo (sortDescArea group) [] []

/-- The stepwise precondition under which `pack` never reaches the
`best_pt = None` state: whenever a member is placed against a nonempty
placement-point list, some candidate survives the overlap test. -/
def packSafe : List Item → List Item → List Pt → Prop
  | [], _, _ => True
  | m :: rest, packed, pts =>
    if m.locked then packSafe rest packed pts
    else
      match pts with
      | [] => packSafe rest (packed ++ [m]) [m.tl_corner, m.br_corner]
      | _ :: _ =>
        survRec packed m pts ≠ [] ∧
        ∀ mt q s, evalPts packed m pts none = (mt, some (q, s)) →
          packSafe rest (packed ++ [mt.set_bl_position q])
            (removeFirst pts q ++
              [(mt.set_bl_position q).tl_corner, (mt.set_bl_position q).br_corner])

/-- Outcome of the `Run` loop under a fuel bound. -/
inductive RunResult where
  | done (gs : Groups)
  | crashed
  | fuelOut

/-- The loop stopped on its own (by the stop condition or by the crash in
`pack`), rather than running out of fuel. -/
def RunResult.stopped : RunResult → Bool
  | .fuelOut => false
  | _ => true

/-- Pack the members of each group (`for group in groups.values(): pack(group)`). -/
def packAll : Groups → Option Groups
  | [] => some []
  | (k, v) :: rest =>
    match pack v, packAll rest with
    | some v2, some rest2 => some ((k, v2) :: rest2)
    | _, _ => none

/-- `groups.values()`, each value seen as one composite module group. -/
def regroupItems (gs : Groups) : List Item :=
  gs.map (fun kv => Item.grp (ItemList.ofList kv.2))

/-- The `while True` loop of `HierPlace.Run`, with explicit fuel: pack every
group, stop once at most one group remains, otherwise regroup one hierarchy
level up and repeat. -/
def runLoop : Nat → Groups → RunResult
  | 0, _ => RunResult.fuelOut
  | Nat.succ n, gs =>
    match packAll gs with
    | none => RunResult.crashed
    | some gs2 =>
      if gs2.length ≤ 1 then RunResult.done gs2
      else runLoop n (group_modules (regroupItems gs2))

/-- The longest hierarchy key among the groups: the depth bound. -/
def maxKeyLen (gs : Groups) : Nat :=
  (gs.map (fun kv => kv.1.length)).foldr max 0

/-- Modelled from the spec: the overlap test as §4.2 words it, with BOTH
rectangles shrunk by epsilon before the intersection test
(`shrink(bbox(a), ε) ∩ shrink(bbox(b), ε)`); for comparison with the
code's `Module.touches`, which shrinks only the moving module's box. -/
def touchesBothShrunk (a b : Item) : Bool :=
  Rect.intersects (a.bbox.inflate (-1)) (b.bbox.inflate (-1))

/-- Open-interior overlap of two rectangles: strict inequalities on both
axes. -/
def strictOverlap (r1 r2 : Rect) : Prop :=
  r1.left < r2.right ∧ r2.left < r1.right ∧ r1.top < r2.bottom ∧ r2.top < r1.bottom

instance (r1 r2 : Rect) : Decidable (strictOverlap r1 r2) := by
  unfold strictOverlap; infer_instance

/-! ### Concrete boards used to instantiate the theorems on closed inputs -/

/-- A 100000x100000 module at the origin, level `/X`. -/
def mA : ModuleData := ⟨"A", ["", "X", "a1"], 0, 0, 100000, 100000, false, false⟩

/-- A module of the same size placed far to the right, level `/X`. -/
def mB : ModuleData := ⟨"B", ["", "X", "b1"], 5000000, 0, 100000, 100000, false, false⟩

/-- A deeper module at level `/X/Y`. -/
def mC : ModuleData := ⟨"C", ["", "X", "Y", "c1"], 9000000, 9000000, 200000, 100000, false, false⟩

/-- A locked module. -/
def mL : ModuleData := ⟨"L", ["", "X", "l1"], 7, 9, 50, 60, false, true⟩

/-- A two-module group sharing hierarchy level `/X`. -/
def demoGroup : List Item := [Item.mod mA, Item.mod mB]

/-- The already-placed list after `pack` placed `mA` first. -/
def demoPacked : List Item := [Item.mod mA]

/-- The two anchor points seeded by the first placed module `mA`. -/
def demoPts : List Pt := [(Item.mod mA).tl_corner, (Item.mod mA).br_corner]

/-- A 10x10 module at the origin. -/
def mP : ModuleData := ⟨"P", ["", "X", "p1"], 0, 0, 10, 10, false, false⟩

/-- A 10x10 module (its starting position is irrelevant: it is tentatively
re-placed). -/
def mQ : ModuleData := ⟨"Q", ["", "X", "q1"], 2000000, 2000000, 10, 10, false, false⟩

/-- A placement point making `mQ`'s box overlap `mP`'s by exactly one unit
in x: the single-shrunk test reports a touch, the both-shrunk test does not. -/
def ptX : Pt := (350009, 0)

/-- `demoGroup` with different reference labels only. -/
def demoGroupRelabeled : List Item :=
  [Item.mod { mA with ref := "A2" }, Item.mod { mB with ref := "B2" }]

/-- A nested group: a leaf next to a one-member subgroup. -/
def demoNested : ItemList :=
  ItemList.cons (Item.mod mA) (ItemList.cons (Item.grp (ItemList.cons (Item.mod mC) ItemList.nil)) ItemList.nil)

/-! ### Basic lemmas about the member-list view and geometry -/

theorem toList_ofList (l : List Item) : (ItemList.ofList l).toList = l := by
  induction l with
  | nil => rfl
  | cons a as ih => simp [ItemList.ofList, ItemList.toList, ih]

theorem bboxes_eq_map : ∀ ms : ItemList, bboxes ms = ms.toList.map Item.bbox
  | .nil => rfl
  | .cons i is => by
    rw [bboxes, ItemList.toList, List.map_cons, bboxes_eq_map is]

theorem merge_grows (a b : Rect) : Rect.containsR (Rect.merge a b) a ∧ Rect.containsR (Rect.merge a b) b := by
  simp only [Rect.merge, Rect.containsR]
  omega

theorem foldl_merge_grows (l : List Rect) : ∀ init : Rect,
    Rect.containsR (l.foldl Rect.merge init) init ∧
    ∀ r ∈ l, Rect.containsR (l.foldl Rect.merge init) r := by
  induction l with
  | nil =>
    intro init
    refine ⟨?_, by simp⟩
    simp [Rect.containsR]
  | cons x xs ih =>
    intro init
    have h := ih (Rect.merge init x)
    constructor
    · have h1 := (merge_grows init x).1
      have h2 := h.1
      simp only [List.foldl_cons]
      simp only [Rect.containsR] at h1 h2 ⊢
      omega
    · intro r hr
      rcases List.mem_cons.mp hr with rfl | hr
      · have h1 := (merge_grows init r).2
        have h2 := h.1
        simp only [List.foldl_cons]
        simp only [Rect.containsR] at h1 h2 ⊢
        omega
      · simp only [List.foldl_cons]
        exact h.2 r hr

theorem containsR_inflate (r1 r2 : Rect) (d : Int) (h : Rect.containsR r1 r2) :
    Rect.containsR (r1.inflate d) (r2.inflate d) := by
  simp only [Rect.containsR, Rect.inflate] at h ⊢
  omega

theorem foldl_merge_width (l : List Rect) : ∀ init : Rect,
    init.width ≤ (l.foldl Rect.merge init).width ∧
    init.height ≤ (l.foldl Rect.merge init).height := by
  intro init
  have h := (foldl_merge_grows l init).1
  simp only [Rect.containsR] at h
  simp only [Rect.width, Rect.height]
  omega

theorem grp_bbox_fat (ms : ItemList) :
    2 ≤ (Item.grp ms).bbox.width ∧ 2 ≤ (Item.grp ms).bbox.height := by
  rw [Item.bbox]
  unfold groupBboxOf
  match bboxes ms with
  | [] =>
    simp [Rect.atPoint, Rect.inflate, Rect.width, Rect.height, GROUP_SPACING, MODULE_SPACING]
  | r :: rs =>
    have h := foldl_merge_width (r :: rs) (Rect.atPoint r.center)
    simp only [Rect.width, Rect.height, Rect.inflate, Rect.atPoint] at h ⊢
    simp only [GROUP_SPACING, MODULE_SPACING]
    omega

theorem mod_bbox_fat (m : ModuleData) (hw : 0 ≤ m.w) (hh : 0 ≤ m.h) :
    2 ≤ (Item.mod m).bbox.width ∧ 2 ≤ (Item.mod m).bbox.height := by
  rw [Item.bbox]
  simp only [Rect.width, Rect.height, MODULE_SPACING]
  omega

theorem mem_leaves_self (m : ModuleData) : m ∈ (Item.mod m).leaves := by
  rw [Item.leaves]; exact List.mem_singleton.mpr rfl

theorem bbox_fat (i : Item) (h : i.sizesOK) :
    2 ≤ i.bbox.width ∧ 2 ≤ i.bbox.height := by
  match i with
  | .mod m =>
    have hm := h m (mem_leaves_self m)
    exact mod_bbox_fat m hm.1 hm.2
  | .grp ms => exact grp_bbox_fat ms

/-! ### The touches test: symmetry and geometric characterization -/

theorem touches_strict (a b : Item)
    (ha : 2 ≤ a.bbox.width ∧ 2 ≤ a.bbox.height)
    (hb : 2 ≤ b.bbox.width ∧ 2 ≤ b.bbox.height) :
    a.touches b = true ↔ strictOverlap a.bbox b.bbox := by
  rw [Item.touches, Rect.intersects, decide_eq_true_eq]
  simp only [Rect.inflate, strictOverlap, Rect.width, Rect.height] at *
  omega

theorem touches_symm (a b : Item)
    (ha : 2 ≤ a.bbox.width ∧ 2 ≤ a.bbox.height)
    (hb : 2 ≤ b.bbox.width ∧ 2 ≤ b.bbox.height) :
    a.touches b = b.touches a := by
  rw [Item.touches, Item.touches, Rect.intersects, Rect.intersects, decide_eq_decide]
  simp only [Rect.inflate, Rect.width, Rect.height] at *
  omega

theorem same_bl_touches (a b : Item)
    (ha : 2 ≤ a.bbox.width ∧ 2 ≤ a.bbox.height)
    (hb : 2 ≤ b.bbox.width ∧ 2 ≤ b.bbox.height)
    (h : a.bl_corner = b.bl_corner) : a.touches b = true := by
  rw [touches_strict a b ha hb]
  simp only [Item.bl_corner, Prod.mk.injEq] at h
  simp only [strictOverlap, Rect.width, Rect.height] at *
  omega

/-! ### Moving items: effect on leaves, flags, keys and boxes -/

mutual
theorem leaves_move (dx dy : Int) : ∀ i : Item,
    (Item.move dx dy i).leaves =
      i.leaves.map (fun m => if m.locked then m else { m with x := m.x + dx, y := m.y + dy })
  | .mod m => by
    by_cases h : m.locked <;> simp [Item.move, h, Item.leaves]
  | .grp ms => by
    rw [Item.move, Item.leaves, Item.leaves, leavesList_move dx dy ms]

theorem leavesList_move (dx dy : Int) : ∀ ms : ItemList,
    leavesList (moveList dx dy ms) =
      (leavesList ms).map (fun m => if m.locked then m else { m with x := m.x + dx, y := m.y + dy })
  | .nil => rfl
  | .cons i is => by
    rw [moveList, leavesList, leavesList, List.map_append,
      leaves_move dx dy i, leavesList_move dx dy is]
end

theorem locked_move (dx dy : Int) (i : Item) : (Item.move dx dy i).locked = i.locked := by
  match i with
  | .mod m => by_cases h : m.locked <;> simp [Item.move, h, Item.locked]
  | .grp ms => rw [Item.move, Item.locked, Item.locked]

mutual
theorem hier_level_move (dx dy : Int) : ∀ i : Item,
    (Item.move dx dy i).hier_level = i.hier_level
  | .mod m => by
    by_cases h : m.locked <;> simp [Item.move, h, Item.hier_level]
  | .grp ms => by
    rw [Item.move, Item.hier_level, Item.hier_level, headHierOf_move dx dy ms]

theorem headHierOf_move (dx dy : Int) : ∀ ms : ItemList,
    headHierOf (moveList dx dy ms) = headHierOf ms
  | .nil => rfl
  | .cons i is => by
    rw [moveList, headHierOf, headHierOf, hier_level_move dx dy i]
end

mutual
theorem movable_move (dx dy : Int) : ∀ i : Item,
    (Item.move dx dy i).movable = i.movable
  | .mod m => by
    by_cases h : m.locked <;> simp [Item.move, h, Item.movable]
  | .grp ms => by
    rw [Item.move, Item.movable, Item.movable, movableMembers_move dx dy ms]

theorem movableMembers_move (dx dy : Int) : ∀ ms : ItemList,
    movableMembers (moveList dx dy ms) = movableMembers ms
  | .nil => rfl
  | .cons i .nil => by
    rw [moveList, moveList, movableMembers, movableMembers, movable_move dx dy i]
  | .cons i (.cons j js) => by
    rw [moveList, movableMembers]
    rw [show moveList dx dy (ItemList.cons j js) = ItemList.cons (Item.move dx dy j) (moveList dx dy js) from rfl]
    rw [movableMembers, movable_move dx dy i]
    rw [show ItemList.cons (Item.move dx dy j) (moveList dx dy js) = moveList dx dy (ItemList.cons j js) from rfl]
    rw [movableMembers_move dx dy (ItemList.cons j js)]
end

theorem sizesOK_move (dx dy : Int) (i : Item) (h : i.sizesOK) :
    (Item.move dx dy i).sizesOK := by
  intro m hm
  rw [leaves_move] at hm
  obtain ⟨m0, hm0, hEq⟩ := List.mem_map.mp hm
  have := h m0 hm0
  by_cases hl : m0.locked <;> simp [hl] at hEq <;> subst hEq <;> simpa using this

mutual
theorem move_move (dx dy du dv : Int) : ∀ i : Item,
    Item.move dx dy (Item.move du dv i) = Item.move (du + dx) (dv + dy) i
  | .mod m => by
    by_cases h : m.locked
    · simp [Item.move, h]
    · simp only [Item.move, h, if_false, Bool.false_eq_true]
      congr 1
      simp
      omega
  | .grp ms => by
    rw [Item.move, Item.move, Item.move, moveList_moveList dx dy du dv ms]

theorem moveList_moveList (dx dy du dv : Int) : ∀ ms : ItemList,
    moveList dx dy (moveList du dv ms) = moveList (du + dx) (dv + dy) ms
  | .nil => rfl
  | .cons i is => by
    rw [moveList, moveList, moveList, move_move dx dy du dv i, moveList_moveList dx dy du dv is]
end

theorem movable_not_locked (i : Item) (h : i.movable = true) : i.locked = false := by
  match i with
  | .mod m =>
    rw [Item.movable] at h
    rw [Item.locked]
    simpa using h
  | .grp ms => rw [Item.locked]

/-! ### Bounding boxes follow rigid moves (for movable items) -/

theorem merge_translate (a b : Rect) (dx dy : Int) :
    Rect.merge (a.translate dx dy) (b.translate dx dy) = (Rect.merge a b).translate dx dy := by
  simp only [Rect.merge, Rect.translate, Rect.mk.injEq]
  omega

theorem foldl_merge_translate (l : List Rect) (dx dy : Int) : ∀ init : Rect,
    (l.map (fun r => r.translate dx dy)).foldl Rect.merge (init.translate dx dy) =
      (l.foldl Rect.merge init).translate dx dy := by
  induction l with
  | nil => intro init; rfl
  | cons x xs ih =>
    intro init
    simp only [List.map_cons, List.foldl_cons, merge_translate]
    exact ih (Rect.merge init x)

theorem center_translate (r : Rect) (dx dy : Int) :
    (r.translate dx dy).center = ((r.center).1 + dx, (r.center).2 + dy) := by
  simp only [Rect.center, Rect.translate, Rect.width, Rect.height, Prod.mk.injEq]
  constructor <;> [skip; skip] <;>
  · have : r.right + dx - (r.left + dx) = r.right - r.left := by omega
    first
    | (rw [show r.right + dx - (r.left + dx) = r.right - r.left by omega]; omega)
    | (rw [show r.bottom + dy - (r.top + dy) = r.bottom - r.top by omega]; omega)

theorem atPoint_translate (p : Pt) (dx dy : Int) :
    Rect.atPoint (p.1 + dx, p.2 + dy) = (Rect.atPoint p).translate dx dy := by
  simp [Rect.atPoint, Rect.translate]

theorem groupBboxOf_translate (rs : List Rect) (h : rs ≠ []) (dx dy : Int) :
    groupBboxOf (rs.map (fun r => r.translate dx dy)) = (groupBboxOf rs).translate dx dy := by
  match rs with
  | [] => exact absurd rfl h
  | r :: rest =>
    simp only [groupBboxOf, List.map_cons]
    rw [center_translate, atPoint_translate]
    have hmap : r.translate dx dy :: rest.map (fun s => s.translate dx dy) =
        (r :: rest).map (fun s => s.translate dx dy) := by simp
    rw [hmap, foldl_merge_translate (r :: rest) dx dy (Rect.atPoint r.center)]
    simp only [Rect.inflate, Rect.translate, Rect.mk.injEq]
    omega

theorem movableMembers_ne_nil (ms : ItemList) (h : movableMembers ms = true) : ms ≠ .nil := by
  intro hEq
  subst hEq
  rw [movableMembers] at h
  exact Bool.false_ne_true h

mutual
theorem bbox_move (dx dy : Int) : ∀ i : Item, i.movable = true →
    (Item.move dx dy i).bbox = i.bbox.translate dx dy
  | .mod m => by
    intro h
    rw [Item.movable] at h
    have hl : m.locked = false := by simpa using h
    simp only [Item.move, hl, Bool.false_eq_true, if_false, Item.bbox,
      Rect.translate, Rect.mk.injEq]
    omega
  | .grp ms => by
    intro h
    rw [Item.movable] at h
    have hne : bboxes ms ≠ [] := by
      match ms with
      | .nil => exact absurd h (by rw [movableMembers]; simp)
      | .cons i is => rw [bboxes]; simp
    rw [Item.move, Item.bbox, Item.bbox, bboxes_move dx dy ms h,
      groupBboxOf_translate (bboxes ms) hne dx dy]

theorem bboxes_move (dx dy : Int) : ∀ ms : ItemList, movableMembers ms = true →
    bboxes (moveList dx dy ms) = (bboxes ms).map (fun r => r.translate dx dy)
  | .nil => by
    intro h
    exact absurd h (by rw [movableMembers]; simp)
  | .cons i .nil => by
    intro h
    rw [movableMembers] at h
    rw [moveList, moveList, bboxes, bboxes, bboxes, bboxes, bbox_move dx dy i h]
    simp
  | .cons i (.cons j js) => by
    intro h
    rw [movableMembers, Bool.and_eq_true] at h
    rw [moveList, bboxes, bbox_move dx dy i h.1,
      bboxes_move dx dy (ItemList.cons j js) h.2]
    simp [bboxes]
end

theorem bl_corner_move (dx dy : Int) (i : Item) (h : i.movable = true) :
    (Item.move dx dy i).bl_corner = ((i.bl_corner).1 + dx, (i.bl_corner).2 + dy) := by
  simp [Item.bl_corner, bbox_move dx dy i h, Rect.translate]

theorem locked_set_bl (i : Item) (p : Pt) :
    (i.set_bl_position p).locked = i.locked := by
  rw [Item.set_bl_position]
  by_cases h : i.locked = true
  · simp [h]
  · simp only [Bool.not_eq_true] at h
    simp [h, locked_move]

theorem movable_set_bl (i : Item) (p : Pt) :
    (i.set_bl_position p).movable = i.movable := by
  rw [Item.set_bl_position]
  by_cases h : i.locked = true
  · simp [h]
  · simp only [Bool.not_eq_true] at h
    simp [h, movable_move]

theorem hier_level_set_bl (i : Item) (p : Pt) :
    (i.set_bl_position p).hier_level = i.hier_level := by
  rw [Item.set_bl_position]
  by_cases h : i.locked = true
  · simp [h]
  · simp only [Bool.not_eq_true] at h
    simp [h, hier_level_move]

theorem sizesOK_set_bl (i : Item) (p : Pt) (h : i.sizesOK) :
    (i.set_bl_position p).sizesOK := by
  rw [Item.set_bl_position]
  by_cases hl : i.locked = true
  · simpa [hl] using h
  · simp only [Bool.not_eq_true] at hl
    simp only [hl, Bool.false_eq_true, if_false]
    exact sizesOK_move _ _ i h

theorem set_bl_bbox (i : Item) (h : i.movable = true) (p : Pt) :
    (i.set_bl_position p).bbox =
      ⟨p.1, p.2 - i.bbox.height, p.1 + i.bbox.width, p.2⟩ := by
  have hl := movable_not_locked i h
  rw [Item.set_bl_position]
  simp only [hl, Bool.false_eq_true, if_false]
  rw [bbox_move _ _ i h]
  simp only [Rect.translate, Item.bl_corner, Rect.width, Rect.height, Rect.mk.injEq]
  omega

theorem set_bl_unfold (i : Item) (hl : i.locked = false) (p : Pt) :
    i.set_bl_position p =
      Item.move (p.1 - (i.bl_corner).1) (p.2 - (i.bl_corner).2) i := by
  rw [Item.set_bl_position, if_neg (by rw [hl]; simp)]

theorem set_bl_absorb (i : Item) (h : i.movable = true) (p q : Pt) :
    (i.set_bl_position p).set_bl_position q = i.set_bl_position q := by
  have hl := movable_not_locked i h
  have hml : (Item.move (p.1 - (i.bl_corner).1) (p.2 - (i.bl_corner).2) i).locked = false := by
    rw [locked_move]; exact hl
  rw [set_bl_unfold i hl p, set_bl_unfold _ hml q, set_bl_unfold i hl q,
    bl_corner_move _ _ i h, move_move]
  congr 1 <;> omega

/-! ### The candidate loop: accumulator facts -/

theorem tieStep_isSome (acc : Option (Pt × Int)) (c : Pt × Int) :
    (tieStep acc c).isSome = true := by
  match acc with
  | none => rfl
  | some (q, t) =>
    rw [tieStep]
    by_cases h : c.2 ≤ t <;> simp [h]

theorem foldl_tieStep_some (l : List (Pt × Int)) : ∀ acc : Option (Pt × Int),
    acc.isSome = true → (l.foldl tieStep acc).isSome = true := by
  induction l with
  | nil => intro acc h; exact h
  | cons c cs ih =>
    intro acc _
    rw [List.foldl_cons]
    exact ih (tieStep acc c) (tieStep_isSome acc c)

theorem foldl_tieStep_none_iff (l : List (Pt × Int)) : ∀ acc : Option (Pt × Int),
    l.foldl tieStep acc = none ↔ (acc = none ∧ l = []) := by
  match l with
  | [] => intro acc; simp
  | c :: cs =>
    intro acc
    rw [List.foldl_cons]
    constructor
    · intro h
      have := foldl_tieStep_some cs (tieStep acc c) (tieStep_isSome acc c)
      rw [h] at this
      exact absurd this (by simp)
    · rintro ⟨_, h⟩
      exact absurd h (by simp)

theorem foldl_tieStep_mem (l : List (Pt × Int)) : ∀ (acc : Option (Pt × Int)) (q : Pt) (s : Int),
    l.foldl tieStep acc = some (q, s) → (q, s) ∈ l ∨ acc = some (q, s) := by
  induction l with
  | nil => intro acc q s h; exact Or.inr h
  | cons c cs ih =>
    intro acc q s h
    rw [List.foldl_cons] at h
    rcases ih (tieStep acc c) q s h with hm | he
    · exact Or.inl (List.mem_cons_of_mem c hm)
    · match acc with
      | none =>
        rw [tieStep] at he
        exact Or.inl (by rw [List.mem_cons]; exact Or.inl (by injection he with h2; exact h2.symm))
      | some (q', t') =>
        rw [tieStep] at he
        by_cases hc : c.2 ≤ t'
        · rw [if_pos hc] at he
          exact Or.inl (by rw [List.mem_cons]; exact Or.inl (by injection he with h2; exact h2.symm))
        · rw [if_neg hc] at he
          exact Or.inr he

/-! ### The candidate loop: relating `evalPts`, `survRec` and the module state -/

theorem evalPts_acc (packed : List Item) : ∀ (pts : List Pt) (m : Item) (acc : Option (Pt × Int)),
    (evalPts packed m pts acc).2 = (survRec packed m pts).foldl tieStep acc := by
  intro pts
  induction pts with
  | nil => intro m acc; rfl
  | cons pt rest ih =>
    intro m acc
    rw [evalPts, survRec]
    by_cases h : packed.any (fun pm => (m.set_bl_position pt).touches pm) = true
    · simp only [h, if_true]
      exact ih (m.set_bl_position pt) acc
    · simp only [Bool.not_eq_true] at h
      simp only [h, Bool.false_eq_true, if_false, List.foldl_cons]
      exact ih (m.set_bl_position pt) (tieStep acc (pt, packSize (packed ++ [m.set_bl_position pt])))

theorem evalPts_state_pred (packed : List Item) {P : Item → Prop}
    (hP : ∀ i p, P i → P (i.set_bl_position p)) :
    ∀ (pts : List Pt) (m : Item) (acc : Option (Pt × Int)),
      P m → P (evalPts packed m pts acc).1 := by
  intro pts
  induction pts with
  | nil => intro m acc h; exact h
  | cons pt rest ih =>
    intro m acc h
    rw [evalPts]
    by_cases hc : packed.any (fun pm => (m.set_bl_position pt).touches pm) = true
    · simp only [hc, if_true]
      exact ih (m.set_bl_position pt) acc (hP m pt h)
    · simp only [Bool.not_eq_true] at hc
      simp only [hc, Bool.false_eq_true, if_false]
      exact ih (m.set_bl_position pt) _ (hP m pt h)

theorem evalPts_state_set_bl (packed : List Item) :
    ∀ (pts : List Pt) (m : Item), m.movable = true → ∀ (acc : Option (Pt × Int)) (q : Pt),
      ((evalPts packed m pts acc).1).set_bl_position q = m.set_bl_position q := by
  intro pts
  induction pts with
  | nil => intro m _ acc q; rfl
  | cons pt rest ih =>
    intro m hm acc q
    have hm2 : (m.set_bl_position pt).movable = true := by
      rw [movable_set_bl]; exact hm
    rw [evalPts]
    by_cases hc : packed.any (fun pm => (m.set_bl_position pt).touches pm) = true
    · simp only [hc, if_true]
      rw [ih (m.set_bl_position pt) hm2 acc q, set_bl_absorb m hm pt q]
    · simp only [Bool.not_eq_true] at hc
      simp only [hc, Bool.false_eq_true, if_false]
      rw [ih (m.set_bl_position pt) hm2 _ q, set_bl_absorb m hm pt q]

theorem survRec_props (packed : List Item) :
    ∀ (pts : List Pt) (m : Item), m.movable = true → ∀ (q : Pt) (s : Int),
      (q, s) ∈ survRec packed m pts →
      packed.any (fun pm => (m.set_bl_position q).touches pm) = false ∧
        s = packSize (packed ++ [m.set_bl_position q]) := by
  intro pts
  induction pts with
  | nil => intro m _ q s h; exact absurd h (by rw [survRec]; simp)
  | cons pt rest ih =>
    intro m hm q s h
    have hm2 : (m.set_bl_position pt).movable = true := by
      rw [movable_set_bl]; exact hm
    rw [survRec] at h
    by_cases hc : packed.any (fun pm => (m.set_bl_position pt).touches pm) = true
    · simp only [hc, if_true] at h
      have := ih (m.set_bl_position pt) hm2 q s h
      rwa [set_bl_absorb m hm pt q] at this
    · simp only [Bool.not_eq_true] at hc
      simp only [hc, Bool.false_eq_true, if_false, List.mem_cons] at h
      rcases h with hEq | h
    
      · have h1 : q = pt := congrArg Prod.fst hEq
        have h2 : s = packSize (packed ++ [m.set_bl_position pt]) := congrArg Prod.snd hEq
        subst h1
        exact ⟨hc, h2⟩
      · have := ih (m.set_bl_position pt) hm2 q s h
        rwa [set_bl_absorb m hm pt q] at this

/-! ### The packing loop: invariants -/

theorem packGo_cons (m : Item) (rest packed : List Item) (pts : List Pt) :
    packGo (m :: rest) packed pts =
      if m.locked then packGo rest packed pts
      else
        match pts with
        | [] => packGo rest (packed ++ [m]) [m.tl_corner, m.br_corner]
        | _ :: _ =>
          match evalPts packed m pts none with
          | (_, none) => none
          | (mt, some (q, _)) =>
            packGo rest (packed ++ [mt.set_bl_position q])
              (removeFirst pts q ++
                [(mt.set_bl_position q).tl_corner, (mt.set_bl_position q).br_corner]) := by
  rw [packGo.eq_def]

theorem packGo_forall {P : Item → Prop} (hP : ∀ i p, P i → P (i.set_bl_position p)) :
    ∀ (ms packed : List Item) (pts : List Pt) (out : List Item),
      packGo ms packed pts = some out →
      (∀ i ∈ ms, i.locked = false → P i) → (∀ i ∈ packed, P i) →
      ∀ i ∈ out, P i := by
  intro ms
  induction ms with
  | nil =>
    intro packed pts out hout hms hpacked
    rw [packGo] at hout
    injection hout with h
    subst h
    exact hpacked
  | cons m rest ih =>
    intro packed pts out hout hms hpacked
    rw [packGo_cons] at hout
    by_cases hl : m.locked = true
    · rw [if_pos hl] at hout
      exact ih packed pts out hout (fun i hi => hms i (List.mem_cons_of_mem m hi)) hpacked
    · rw [if_neg hl] at hout
      simp only [Bool.not_eq_true] at hl
      have hPm : P m := hms m (List.mem_cons_self m rest) hl
      match pts with
      | [] =>
        refine ih _ _ out hout (fun i hi => hms i (List.mem_cons_of_mem m hi)) ?_
        intro i hi
        rcases List.mem_append.mp hi with h1 | h2
        · exact hpacked i h1
        · rw [List.mem_singleton] at h2; subst h2; exact hPm
      | pt :: pts' =>
        rcases hE : evalPts packed m (pt :: pts') none with ⟨mt, acc⟩
        rcases acc with _ | ⟨q, s⟩
        · simp only [hE] at hout
          exact Option.noConfusion hout
        · simp only [hE] at hout
          have hmt : P mt := by
            have := evalPts_state_pred packed hP (pt :: pts') m none hPm
            rwa [hE] at this
          refine ih _ _ out hout (fun i hi => hms i (List.mem_cons_of_mem m hi)) ?_
          intro i hi
          rcases List.mem_append.mp hi with h1 | h2
          · exact hpacked i h1
          · rw [List.mem_singleton] at h2; subst h2
            exact hP mt q hmt

theorem packGo_ne_nil :
    ∀ (ms packed : List Item) (pts : List Pt) (out : List Item),
      packGo ms packed pts = some out →
      (packed ≠ [] ∨ ∃ i ∈ ms, i.locked = false) → out ≠ [] := by
  intro ms
  induction ms with
  | nil =>
    intro packed pts out hout hne
    rw [packGo] at hout
    injection hout with h
    subst h
    rcases hne with h | ⟨i, hi, _⟩
    · exact h
    · exact absurd hi (by simp)
  | cons m rest ih =>
    intro packed pts out hout hne
    rw [packGo_cons] at hout
    by_cases hl : m.locked = true
    · rw [if_pos hl] at hout
      refine ih packed pts out hout ?_
      rcases hne with h | ⟨i, hi, hiu⟩
      · exact Or.inl h
      · rcases List.mem_cons.mp hi with rfl | hi
        · rw [hl] at hiu; exact absurd hiu (by simp)
        · exact Or.inr ⟨i, hi, hiu⟩
    · rw [if_neg hl] at hout
      match pts with
      | [] =>
        exact ih _ _ out hout (Or.inl (by simp))
      | pt :: pts' =>
        rcases hE : evalPts packed m (pt :: pts') none with ⟨mt, acc⟩
        rcases acc with _ | ⟨q, s⟩
        · simp only [hE] at hout
          exact Option.noConfusion hout
        · simp only [hE] at hout
          exact ih _ _ out hout (Or.inl (by simp))

theorem packGo_pairwise :
    ∀ (ms packed : List Item) (pts : List Pt) (out : List Item),
      packGo ms packed pts = some out →
      (∀ i ∈ ms, i.movable = true ∧ i.sizesOK) →
      (∀ i ∈ packed, i.sizesOK) →
      (pts = [] → packed = []) →
      List.Pairwise (fun a b => a.touches b = false ∧ b.touches a = false) packed →
      List.Pairwise (fun a b => a.touches b = false ∧ b.touches a = false) out ∧
        ∀ i ∈ out, i.sizesOK := by
  intro ms
  induction ms with
  | nil =>
    intro packed pts out hout _ hpsz _ hpw
    rw [packGo] at hout
    injection hout with h
    subst h
    exact ⟨hpw, hpsz⟩
  | cons m rest ih =>
    intro packed pts out hout hms hpsz hpts hpw
    rw [packGo_cons] at hout
    by_cases hl : m.locked = true
    · rw [if_pos hl] at hout
      exact ih packed pts out hout (fun i hi => hms i (List.mem_cons_of_mem m hi)) hpsz hpts hpw
    · rw [if_neg hl] at hout
      have hm := hms m (List.mem_cons_self m rest)
      match pts with
      | [] =>
        have hpe : packed = [] := hpts rfl
        subst hpe
        refine ih _ _ out hout (fun i hi => hms i (List.mem_cons_of_mem m hi)) ?_ ?_ ?_
        · intro i hi
          rw [List.nil_append, List.mem_singleton] at hi
          subst hi
          exact hm.2
        · intro h
          exact absurd h (by simp)
        · rw [List.nil_append]
          exact List.pairwise_singleton _ m
      | pt :: pts' =>
        rcases hE : evalPts packed m (pt :: pts') none with ⟨mt, acc⟩
        rcases acc with _ | ⟨q, s⟩
        · simp only [hE] at hout
          exact Option.noConfusion hout
        · simp only [hE] at hout
          have hacc : (evalPts packed m (pt :: pts') none).2 = some (q, s) := by
            rw [hE]
          rw [evalPts_acc packed (pt :: pts') m none] at hacc
          have hmem : (q, s) ∈ survRec packed m (pt :: pts') := by
            rcases foldl_tieStep_mem _ none q s hacc with h | h
            · exact h
            · exact absurd h (by simp)
          have hnot := (survRec_props packed (pt :: pts') m hm.1 q s hmem).1
          have hm2eq : mt.set_bl_position q = m.set_bl_position q := by
            have := evalPts_state_set_bl packed (pt :: pts') m hm.1 none q
            rwa [hE] at this
          rw [hm2eq] at hout
          have hm2sz : (m.set_bl_position q).sizesOK := sizesOK_set_bl m q hm.2
          have hm2fat := bbox_fat _ hm2sz
          have hnotAll : ∀ pm ∈ packed, (m.set_bl_position q).touches pm = false := by
            intro pm hpm
            have h1 : ¬((m.set_bl_position q).touches pm = true) := by
              intro hb
              have : packed.any (fun pm => (m.set_bl_position q).touches pm) = true :=
                List.any_eq_true.mpr ⟨pm, hpm, hb⟩
              rw [this] at hnot
              exact absurd hnot (by simp)
            simpa using h1
          refine ih _ _ out hout (fun i hi => hms i (List.mem_cons_of_mem m hi)) ?_ ?_ ?_
          · intro i hi
            rcases List.mem_append.mp hi with h1 | h2
            · exact hpsz i h1
            · rw [List.mem_singleton] at h2; subst h2; exact hm2sz
          · intro h
            exact absurd h (by simp)
          · rw [List.pairwise_append]
            refine ⟨hpw, List.pairwise_singleton _ _, ?_⟩
            intro a ha b hb
            rw [List.mem_singleton] at hb
            subst hb
            have hafat := bbox_fat a (hpsz a ha)
            have h1 : (m.set_bl_position q).touches a = false := hnotAll a ha
            have h2 : a.touches (m.set_bl_position q) = false := by
              rw [touches_symm a _ hafat hm2fat, h1]
            exact ⟨h2, h1⟩

/-! ### The sort: membership -/

theorem mem_insertDesc (x a : Item) : ∀ l : List Item, a ∈ insertDesc x l ↔ a = x ∨ a ∈ l := by
  intro l
  induction l with
  | nil => simp [insertDesc]
  | cons y ys ih =>
    rw [insertDesc]
    by_cases h : x.area ≥ y.area
    · simp [h]
    · simp only [h, if_false, List.mem_cons, ih]
      tauto

theorem mem_sortDescArea (a : Item) (l : List Item) : a ∈ sortDescArea l ↔ a ∈ l := by
  induction l with
  | nil => simp [sortDescArea]
  | cons x xs ih =>
    rw [show sortDescArea (x :: xs) = insertDesc x (sortDescArea xs) from rfl,
      mem_insertDesc, ih]
    simp

/-! ### Claim C1: packed members are pairwise overlap-free -/

/-- C1: when `pack` completes on a group of (recursively) unlocked members
with nonnegative footprint sizes — success `pack group = some out` is
exactly the condition that a surviving anchor candidate existed for every
member after the first — then for any two distinct packed members `a` and
`b`, the bounding box of `a` shrunk by epsilon (one unit) does not
intersect the bounding box of `b`, in both orders. -/
theorem pack_no_overlap (group out : List Item)
    (hmv : ∀ i ∈ group, i.movable = true) (hsz : ∀ i ∈ group, i.sizesOK)
    (hpack : pack group = some out) :
    List.Pairwise (fun a b => a.touches b = false ∧ b.touches a = false) out := by
  rw [pack] at hpack
  refine (packGo_pairwise (sortDescArea group) [] [] out hpack ?_ ?_ ?_ ?_).1
  · intro i hi
    have hm := (mem_sortDescArea i group).mp hi
    exact ⟨hmv i hm, hsz i hm⟩
  · intro i hi
    exact absurd hi (by simp)
  · intro _
    rfl
  · exact List.Pairwise.nil

/-- Witness for C1 on a concrete two-module board. -/
theorem pack_no_overlap_witness :
    List.Pairwise (fun a b => a.touches b = false ∧ b.touches a = false)
      ((pack demoGroup).getD []) :=
  pack_no_overlap demoGroup ((pack demoGroup).getD []) (by decide) (by decide) rfl

/-! ### Claim C7: consumed anchors, distinct placement corners -/

/-- C7: during one successful `pack` run each member is placed with its
bottom-left corner at a consumed anchor point (the point is removed before
the member's own corners are added), and no two packed members end up
anchored at the same point: their bottom-left corners are pairwise
distinct. -/
theorem pack_anchor_unique (group out : List Item)
    (hmv : ∀ i ∈ group, i.movable = true) (hsz : ∀ i ∈ group, i.sizesOK)
    (hpack : pack group = some out) :
    List.Pairwise (fun a b => a.bl_corner ≠ b.bl_corner) out := by
  rw [pack] at hpack
  have hmain := packGo_pairwise (sortDescArea group) [] [] out hpack
    (fun i hi => by
      have hm := (mem_sortDescArea i group).mp hi
      exact ⟨hmv i hm, hsz i hm⟩)
    (fun i hi => absurd hi (by simp))
    (fun _ => rfl)
    List.Pairwise.nil
  refine hmain.1.imp_of_mem ?_
  intro a b ha hb hR hEq
  have hfa := bbox_fat a (hmain.2 a ha)
  have hfb := bbox_fat b (hmain.2 b hb)
  have ht := same_bl_touches a b hfa hfb hEq
  rw [hR.1] at ht
  exact absurd ht (by simp)

/-- Witness for C7 on a concrete two-module board. -/
theorem pack_anchor_unique_witness :
    List.Pairwise (fun a b => a.bl_corner ≠ b.bl_corner) ((pack demoGroup).getD []) :=
  pack_anchor_unique demoGroup ((pack demoGroup).getD []) (by decide) (by decide) rfl

/-! ### Claim C2: the undefined-placement path -/

theorem packSafe_cons (m : Item) (rest packed : List Item) (pts : List Pt) :
    packSafe (m :: rest) packed pts =
      if m.locked then packSafe rest packed pts
      else
        match pts with
        | [] => packSafe rest (packed ++ [m]) [m.tl_corner, m.br_corner]
        | _ :: _ =>
          survRec packed m pts ≠ [] ∧
          ∀ mt q s, evalPts packed m pts none = (mt, some (q, s)) →
            packSafe rest (packed ++ [mt.set_bl_position q])
              (removeFirst pts q ++
                [(mt.set_bl_position q).tl_corner, (mt.set_bl_position q).br_corner]) := by
  rw [packSafe.eq_def]

theorem packGo_isSome_iff : ∀ (ms packed : List Item) (pts : List Pt),
    (packGo ms packed pts).isSome = true ↔ packSafe ms packed pts := by
  intro ms
  induction ms with
  | nil =>
    intro packed pts
    rw [packGo, packSafe]
    simp
  | cons m rest ih =>
    intro packed pts
    rw [packGo_cons, packSafe_cons]
    by_cases hl : m.locked = true
    · rw [if_pos hl, if_pos hl]
      exact ih packed pts
    · rw [if_neg hl, if_neg hl]
      match pts with
      | [] => exact ih _ _
      | pt :: pts' =>
        rcases hE : evalPts packed m (pt :: pts') none with ⟨mt, acc⟩
        have hacc2 : (survRec packed m (pt :: pts')).foldl tieStep none = acc := by
          rw [← evalPts_acc, hE]
        rcases acc with _ | ⟨q, s⟩
        · have hsv : survRec packed m (pt :: pts') = [] :=
            ((foldl_tieStep_none_iff _ none).mp hacc2).2
          constructor
          · intro h
            simp only [hE] at h
            exact absurd h (by simp)
          · rintro ⟨hne, _⟩
            exact absurd hsv hne
        · constructor
          · intro h
            simp only [hE] at h
            refine ⟨?_, ?_⟩
            · intro hnil
              rw [hnil] at hacc2
              exact Option.noConfusion hacc2
            · intro mt' q' s' hEq
              simp only [Prod.mk.injEq, Option.some.injEq] at hEq
              obtain ⟨rfl, rfl, rfl⟩ := hEq
              exact (ih _ _).mp h
          · rintro ⟨hne, hall⟩
            have hrec := hall mt q s rfl
            have h2 := (ih _ _).mpr hrec
            simp only [hE]
            exact h2

/-- C2: `pack` has no declared error path.  It succeeds exactly when, at
every placement step taken against a nonempty anchor list, some candidate
survives the overlap test (`packSafe`).  When for some member no candidate
survives, `best_pt` stays `None`, is handed to `set_bl_position`, and the
run is undefined — modelled as `pack group = none`, the complement of the
left side; conversely under `packSafe` the undefined branch is unreachable
and `pack` is total. -/
theorem pack_total_iff (group : List Item) :
    (pack group).isSome = true ↔ packSafe (sortDescArea group) [] [] := by
  rw [pack]
  exact packGo_isSome_iff (sortDescArea group) [] []

/-- Witness for C2: the concrete two-module board satisfies the stepwise
survival condition because `pack` returns a value on it. -/
theorem pack_total_iff_witness : packSafe (sortDescArea demoGroup) [] [] :=
  (pack_total_iff demoGroup).mp (by rfl)

/-! ### Claim C6: the later-evaluated anchor wins exact ties -/

theorem tieStep_none (c : Pt × Int) : tieStep none c = some c := rfl

theorem tieStep_some (p c : Pt × Int) :
    tieStep (some p) c = if c.2 ≤ p.2 then some c else some p := by
  rcases p with ⟨q, t⟩
  rfl

theorem foldl_tieStep_last_argmin (l : List (Pt × Int)) :
    l ≠ [] →
    ∃ n : Fin l.length,
      l.foldl tieStep none = some (l.get n) ∧
      (∀ j : Fin l.length, (l.get n).2 ≤ (l.get j).2) ∧
      ∀ j : Fin l.length, n.1 < j.1 → (l.get n).2 < (l.get j).2 := by
  induction l using List.reverseRecOn with
  | nil => intro h; exact absurd rfl h
  | append_singleton xs c ih =>
    intro _
    have hLlen : (xs ++ [c]).length = xs.length + 1 := by simp
    have hlen : xs.length < (xs ++ [c]).length := by omega
    have hlastc : (xs ++ [c]).get ⟨xs.length, hlen⟩ = c := by
      rw [List.get_eq_getElem]
      exact List.getElem_concat_length xs c xs.length rfl hlen
    have hsame : ∀ (j : Nat) (hj : j < xs.length) (hj2 : j < (xs ++ [c]).length),
        (xs ++ [c]).get ⟨j, hj2⟩ = xs.get ⟨j, hj⟩ := by
      intro j hj hj2
      rw [List.get_eq_getElem, List.get_eq_getElem]
      exact List.getElem_append_left hj
    rcases eq_or_ne xs [] with rfl | hne
    · have h0 : (0 : Nat) < ([] ++ [c] : List (Pt × Int)).length := by simp
      refine ⟨⟨0, h0⟩, ?_, ?_, ?_⟩
      · simp [tieStep]
      · intro j
        have hj1 : j.1 = 0 := by
          have hj2 := j.2
          simp only [List.nil_append, List.length_cons, List.length_nil] at hj2
          omega
        have hje : j = ⟨0, h0⟩ := Fin.ext hj1
        rw [hje]
      · intro j hj
        have hj2 := j.2
        simp only [List.nil_append, List.length_cons, List.length_nil] at hj2
        have hj0 : (⟨0, h0⟩ : Fin (([] ++ [c] : List (Pt × Int)).length)).1 = 0 := rfl
        omega
    · obtain ⟨n, hf, hmin, hlast⟩ := ih hne
      rw [List.foldl_append, hf]
      simp only [List.foldl_cons, List.foldl_nil]
      rw [tieStep_some]
      by_cases hle : c.2 ≤ (xs.get n).2
      · rw [if_pos hle]
        refine ⟨⟨xs.length, hlen⟩, ?_, ?_, ?_⟩
        · rw [hlastc]
        · intro j
          rw [hlastc]
          rcases Nat.lt_or_ge j.1 xs.length with hjl | hjg
          · have hje : j = ⟨j.1, j.2⟩ := rfl
            rw [hje, hsame j.1 hjl j.2]
            exact le_trans hle (hmin ⟨j.1, hjl⟩)
          · have hj2 := j.2
            have hj1 : j.1 = xs.length := by omega
            have hje : j = ⟨xs.length, hlen⟩ := Fin.ext hj1
            rw [hje, hlastc]
        · intro j hj
          have hj2 := j.2
          have hn1 : (⟨xs.length, hlen⟩ : Fin ((xs ++ [c]).length)).1 = xs.length := rfl
          rw [hn1] at hj
          omega
      · rw [if_neg hle]
        have hn2 : n.1 < (xs ++ [c]).length := by
          have := n.2
          omega
        have hneq : (xs ++ [c]).get ⟨n.1, hn2⟩ = xs.get n := by
          rw [hsame n.1 n.2 hn2]
        refine ⟨⟨n.1, hn2⟩, ?_, ?_, ?_⟩
        · rw [hneq]
        · intro j
          rw [hneq]
          rcases Nat.lt_or_ge j.1 xs.length with hjl | hjg
          · have hje : j = ⟨j.1, j.2⟩ := rfl
            rw [hje, hsame j.1 hjl j.2]
            exact hmin ⟨j.1, hjl⟩
          · have hj2 := j.2
            have hj1 : j.1 = xs.length := by omega
            have hje : j = ⟨xs.length, hlen⟩ := Fin.ext hj1
            rw [hje, hlastc]
            omega
        · intro j hj
          rw [hneq]
          have hni : (⟨n.1, hn2⟩ : Fin ((xs ++ [c]).length)).1 = n.1 := rfl
          rw [hni] at hj
          rcases Nat.lt_or_ge j.1 xs.length with hjl | hjg
          · have hje : j = ⟨j.1, j.2⟩ := rfl
            rw [hje, hsame j.1 hjl j.2]
            exact hlast ⟨j.1, hjl⟩ hj
          · have hj2 := j.2
            have hj1 : j.1 = xs.length := by omega
            have hje : j = ⟨xs.length, hlen⟩ := Fin.ext hj1
            rw [hje, hlastc]
            omega

/-- C6: among the surviving anchor candidates of one placement step, the
comparison `size <= smallest_size` makes the later-evaluated candidate win
exact ties: the winning entry (the one `pack` then places the member at)
scores no more than every survivor, and strictly less than every survivor
evaluated after it — so it is the last minimum in anchor-evaluation order. -/
theorem pack_tie_break_last (packed : List Item) (m : Item) (pts : List Pt)
    (h : survRec packed m pts ≠ []) :
    ∃ n : Fin (survRec packed m pts).length,
      (evalPts packed m pts none).2 = some ((survRec packed m pts).get n) ∧
      (∀ j : Fin (survRec packed m pts).length,
        ((survRec packed m pts).get n).2 ≤ ((survRec packed m pts).get j).2) ∧
      ∀ j : Fin (survRec packed m pts).length,
        n.1 < j.1 → ((survRec packed m pts).get n).2 < ((survRec packed m pts).get j).2 := by
  rw [evalPts_acc]
  exact foldl_tieStep_last_argmin (survRec packed m pts) h

/-- Witness for C6: on the concrete board both seeded anchors survive with
tied scores. -/
theorem pack_tie_break_last_witness :
    survRec demoPacked (Item.mod mB) demoPts ≠ [] ∧
      ∃ n : Fin (survRec demoPacked (Item.mod mB) demoPts).length,
        (evalPts demoPacked (Item.mod mB) demoPts none).2 =
            some ((survRec demoPacked (Item.mod mB) demoPts).get n) ∧
          (∀ j, ((survRec demoPacked (Item.mod mB) demoPts).get n).2 ≤
            ((survRec demoPacked (Item.mod mB) demoPts).get j).2) ∧
          ∀ j, n.1 < j.1 → ((survRec demoPacked (Item.mod mB) demoPts).get n).2 <
            ((survRec demoPacked (Item.mod mB) demoPts).get j).2 :=
  ⟨by decide, pack_tie_break_last demoPacked (Item.mod mB) demoPts (by decide)⟩

/-! ### Claim C5: what the overlap test actually shrinks -/

theorem survRec_mem_of (packed : List Item) :
    ∀ (pts : List Pt) (m : Item), m.movable = true → ∀ pt ∈ pts,
      packed.any (fun pm => (m.set_bl_position pt).touches pm) = false →
      ∃ s, (pt, s) ∈ survRec packed m pts := by
  intro pts
  induction pts with
  | nil => intro m _ pt hpt; exact absurd hpt (by simp)
  | cons pt0 rest ih =>
    intro m hm pt hpt hany
    have hm2 : (m.set_bl_position pt0).movable = true := by
      rw [movable_set_bl]; exact hm
    rw [survRec]
    rcases List.mem_cons.mp hpt with rfl | htail
    · rw [hany]
      simp only [Bool.false_eq_true, if_false]
      exact ⟨packSize (packed ++ [m.set_bl_position pt]), List.mem_cons_self _ _⟩
    · have hany2 : packed.any
          (fun pm => ((m.set_bl_position pt0).set_bl_position pt).touches pm) = false := by
        rw [set_bl_absorb m hm pt0 pt]
        exact hany
      obtain ⟨s, hs⟩ := ih (m.set_bl_position pt0) hm2 pt htail hany2
      by_cases hc : packed.any (fun pm => (m.set_bl_position pt0).touches pm) = true
      · rw [hc]
        simp only [if_true]
        exact ⟨s, hs⟩
      · simp only [Bool.not_eq_true] at hc
        rw [hc]
        simp only [Bool.false_eq_true, if_false]
        exact ⟨s, List.mem_cons_of_mem _ hs⟩

/-- C5 (amended): in `pack`'s candidate evaluation an anchor point is
rejected exactly when the tentatively placed member's bounding box, shrunk
by epsilon, intersects the UNSHRUNK bounding box of some other
already-placed member — `Module.touches` shrinks only the moving member's
rectangle.  For nondegenerate boxes this is exactly open-interior overlap,
so a candidate survives iff its tentative placement overlaps no placed
member's box with positive area on both axes. -/
theorem touches_rejection (packed : List Item) (m : Item) (pts : List Pt)
    (hm : m.movable = true) (hmsz : m.sizesOK) (hpsz : ∀ pm ∈ packed, pm.sizesOK) :
    ∀ pt ∈ pts,
      (∃ s, (pt, s) ∈ survRec packed m pts) ↔
        ∀ pm ∈ packed, ¬ strictOverlap ((m.set_bl_position pt).bbox) pm.bbox := by
  intro pt hpt
  have hfm := bbox_fat _ (sizesOK_set_bl m pt hmsz)
  constructor
  · rintro ⟨s, hmem⟩
    have hnot := (survRec_props packed pts m hm pt s hmem).1
    intro pm hpm hov
    have hfpm := bbox_fat pm (hpsz pm hpm)
    have ht : (m.set_bl_position pt).touches pm = true :=
      (touches_strict _ pm hfm hfpm).mpr hov
    have hc : packed.any (fun q => (m.set_bl_position pt).touches q) = true :=
      List.any_eq_true.mpr ⟨pm, hpm, ht⟩
    rw [hc] at hnot
    exact absurd hnot (by simp)
  · intro hno
    apply survRec_mem_of packed pts m hm pt hpt
    have hall : ∀ pm ∈ packed, (m.set_bl_position pt).touches pm = false := by
      intro pm hpm
      have hfpm := bbox_fat pm (hpsz pm hpm)
      rcases hbv : (m.set_bl_position pt).touches pm with _ | _
      · rfl
      · exact absurd ((touches_strict _ pm hfm hfpm).mp hbv) (hno pm hpm)
    rcases hbv : packed.any (fun pm => (m.set_bl_position pt).touches pm) with _ | _
    · rfl
    · obtain ⟨pm, hpm, ht⟩ := List.any_eq_true.mp hbv
      rw [hall pm hpm] at ht
      exact absurd ht (by simp)

/-- Counterexample for C5 as frozen: at `ptX`, module `mQ` is rejected
against the already-placed `mP` (no survivor), yet the two bounding boxes
BOTH shrunk by epsilon do not intersect — rejection is not governed by the
symmetric two-sided shrink the claim describes. -/
theorem touches_rejection_counterexample :
    survRec [Item.mod mP] (Item.mod mQ) [ptX] = [] ∧
      touchesBothShrunk ((Item.mod mQ).set_bl_position ptX) (Item.mod mP) = false :=
  ⟨by decide, by decide⟩

/-- Witness for the amended C5 at the same concrete input: `ptX` yields no
survivor, matching the open-interior overlap with `mP`. -/
theorem touches_rejection_witness :
    (∃ s, (ptX, s) ∈ survRec [Item.mod mP] (Item.mod mQ) [ptX]) ↔
      ∀ pm ∈ [Item.mod mP],
        ¬ strictOverlap (((Item.mod mQ).set_bl_position ptX).bbox) pm.bbox :=
  touches_rejection [Item.mod mP] (Item.mod mQ) [ptX]
    (by decide) (by decide) (by decide) ptX (by decide)

/-! ### Claim C8: cluster bounding boxes contain their members plus margin -/

theorem mem_toList_mem_bboxes (ms : ItemList) (i : Item) (h : i ∈ ms.toList) :
    Item.bbox i ∈ bboxes ms := by
  rw [bboxes_eq_map]
  exact List.mem_map_of_mem Item.bbox h

/-- C8: the bounding box of a nonempty `ModuleGroup` fully contains every
member's bounding box inflated by the cluster margin `GROUP_SPACING`; this
is a property of `ModuleGroup.bbox` itself, so it holds at all times and in
particular after every `pack`. -/
theorem cluster_bbox_contains (ms : ItemList) (i : Item) (h : i ∈ ms.toList) :
    Rect.containsR (Item.grp ms).bbox ((Item.bbox i).inflate GROUP_SPACING) := by
  have hmem := mem_toList_mem_bboxes ms i h
  rw [Item.bbox]
  match hbb : bboxes ms with
  | [] =>
    rw [hbb] at hmem
    exact absurd hmem (by simp)
  | r :: rs =>
    rw [hbb] at hmem
    simp only [groupBboxOf]
    apply containsR_inflate
    exact (foldl_merge_grows (r :: rs) (Rect.atPoint r.center)).2 _ hmem

/-- Witness for C8 on a concrete nested group. -/
theorem cluster_bbox_contains_witness :
    Rect.containsR (Item.grp demoNested).bbox ((Item.bbox (Item.mod mA)).inflate GROUP_SPACING) :=
  cluster_bbox_contains demoNested (Item.mod mA) (List.Mem.head _)

/-! ### Claim C10: moving a group is a rigid translation of its members -/

/-- C10: `ModuleGroup.move (dx, dy)` reaches every leaf module through any
nesting and translates exactly the unlocked ones by `(dx, dy)` (locked
leaves are untouched), and for movable items a common translation leaves
the `touches` relation — hence the non-overlap established by an earlier
`pack` — unchanged. -/
theorem group_move_rigid :
    (∀ (i : Item) (dx dy : Int),
        (Item.move dx dy i).leaves =
          i.leaves.map (fun m =>
            if m.locked then m else { m with x := m.x + dx, y := m.y + dy })) ∧
      ∀ (a b : Item) (dx dy : Int), a.movable = true → b.movable = true →
        (Item.move dx dy a).touches (Item.move dx dy b) = a.touches b := by
  constructor
  · intro i dx dy
    exact leaves_move dx dy i
  · intro a b dx dy ha hb
    rw [Item.touches, Item.touches, bbox_move dx dy a ha, bbox_move dx dy b hb]
    rw [Rect.intersects, Rect.intersects, decide_eq_decide]
    simp only [Rect.inflate, Rect.translate]
    omega

/-- Witness for C10: a concrete nested group translated by `(3, 5)`. -/
theorem group_move_rigid_witness :
    ((Item.move 3 5 (Item.grp demoNested)).leaves =
        (Item.grp demoNested).leaves.map (fun m =>
          if m.locked then m else { m with x := m.x + 3, y := m.y + 5 })) ∧
      (Item.move 3 5 (Item.mod mA)).touches (Item.move 3 5 (Item.mod mB)) =
        (Item.mod mA).touches (Item.mod mB) :=
  ⟨group_move_rigid.1 (Item.grp demoNested) 3 5,
   group_move_rigid.2 (Item.mod mA) (Item.mod mB) 3 5 (by decide) (by decide)⟩

/-! ### Grouping: properties of `insertInGroup` and `group_modules` -/

theorem insertInGroup_prop {P : HierKey → Item → Prop} :
    ∀ (gs : Groups) (k : HierKey) (x : Item),
      (∀ kv ∈ gs, ∀ i ∈ kv.2, P kv.1 i) → P k x →
      ∀ kv ∈ insertInGroup gs k x, ∀ i ∈ kv.2, P kv.1 i := by
  intro gs
  induction gs with
  | nil =>
    intro k x _ hx kv hkv i hi
    rw [insertInGroup] at hkv
    rw [List.mem_singleton] at hkv
    subst hkv
    rw [List.mem_singleton] at hi
    subst hi
    exact hx
  | cons hd tl ih =>
    rcases hd with ⟨k', v⟩
    intro k x hacc hx kv hkv i hi
    rw [insertInGroup] at hkv
    by_cases hk : k' = k
    · rw [if_pos hk] at hkv
      rcases List.mem_cons.mp hkv with rfl | htl
      · rcases List.mem_append.mp hi with h1 | h2
        · exact hacc (k', v) (List.mem_cons_self _ _) i h1
        · rw [List.mem_singleton] at h2
          subst h2
          rw [← hk] at hx
          exact hx
      · exact hacc kv (List.mem_cons_of_mem _ htl) i hi
    · rw [if_neg hk] at hkv
      rcases List.mem_cons.mp hkv with rfl | htl
      · exact hacc (k', v) (List.mem_cons_self _ _) i hi
      · exact ih k x (fun kv2 hkv2 => hacc kv2 (List.mem_cons_of_mem _ hkv2)) hx kv htl i hi

theorem group_modules_foldl_prop {P : HierKey → Item → Prop} :
    ∀ (ms : List Item) (acc : Groups),
      (∀ kv ∈ acc, ∀ i ∈ kv.2, P kv.1 i) →
      (∀ i ∈ ms, i.locked = false → P i.hier_level i) →
      ∀ kv ∈ ms.foldl
        (fun gs m => if m.locked then gs else insertInGroup gs m.hier_level m) acc,
        ∀ i ∈ kv.2, P kv.1 i := by
  intro ms
  induction ms with
  | nil => intro acc hacc _; exact hacc
  | cons m rest ih =>
    intro acc hacc hms
    rw [List.foldl_cons]
    by_cases hl : m.locked = true
    · simp only [hl, if_true]
      exact ih acc hacc (fun i hi => hms i (List.mem_cons_of_mem m hi))
    · simp only [Bool.not_eq_true] at hl
      simp only [hl, Bool.false_eq_true, if_false]
      refine ih (insertInGroup acc m.hier_level m) ?_
        (fun i hi => hms i (List.mem_cons_of_mem m hi))
      exact insertInGroup_prop acc m.hier_level m hacc
        (hms m (List.mem_cons_self m rest) hl)

theorem group_modules_prop (ms : List Item) :
    ∀ kv ∈ group_modules ms, ∀ i ∈ kv.2,
      i.locked = false ∧ i.hier_level = kv.1 ∧ i ∈ ms := by
  rw [group_modules]
  exact @group_modules_foldl_prop
    (fun k i => i.locked = false ∧ i.hier_level = k ∧ i ∈ ms) ms []
    (fun kv hkv => absurd hkv (by simp))
    (fun i hi hl => ⟨hl, rfl, hi⟩)

theorem insertInGroup_keys : ∀ (gs : Groups) (k : HierKey) (x : Item),
    (insertInGroup gs k x).map Prod.fst =
      if k ∈ gs.map Prod.fst then gs.map Prod.fst else gs.map Prod.fst ++ [k] := by
  intro gs
  induction gs with
  | nil =>
    intro k x
    rw [insertInGroup]
    simp
  | cons hd tl ih =>
    rcases hd with ⟨k', v⟩
    intro k x
    rw [insertInGroup]
    by_cases hk : k' = k
    · rw [if_pos hk]
      subst hk
      simp
    · rw [if_neg hk]
      rw [List.map_cons, ih k x]
      by_cases hmem : k ∈ tl.map Prod.fst
      · rw [if_pos hmem, if_pos (by simp [hmem])]
        simp
      · rw [if_neg hmem, if_neg (by simp [hmem]; exact fun h => hk h.symm)]
        simp

theorem insertInGroup_nonempty :
    ∀ (gs : Groups) (k : HierKey) (x : Item),
      (∀ kv ∈ gs, kv.2 ≠ []) → ∀ kv ∈ insertInGroup gs k x, kv.2 ≠ [] := by
  intro gs
  induction gs with
  | nil =>
    intro k x _ kv hkv
    rw [insertInGroup, List.mem_singleton] at hkv
    subst hkv
    simp
  | cons hd tl ih =>
    rcases hd with ⟨k', v⟩
    intro k x hacc kv hkv
    rw [insertInGroup] at hkv
    by_cases hk : k' = k
    · rw [if_pos hk] at hkv
      rcases List.mem_cons.mp hkv with rfl | htl
      · simp
      · exact hacc kv (List.mem_cons_of_mem _ htl)
    · rw [if_neg hk] at hkv
      rcases List.mem_cons.mp hkv with rfl | htl
      · exact hacc (k', v) (List.mem_cons_self _ _)
      · exact ih k x (fun kv2 hkv2 => hacc kv2 (List.mem_cons_of_mem _ hkv2)) kv htl

theorem group_modules_foldl_nonempty :
    ∀ (ms : List Item) (acc : Groups),
      (∀ kv ∈ acc, kv.2 ≠ []) →
      ∀ kv ∈ ms.foldl
        (fun gs m => if m.locked then gs else insertInGroup gs m.hier_level m) acc,
        kv.2 ≠ [] := by
  intro ms
  induction ms with
  | nil => intro acc hacc; exact hacc
  | cons m rest ih =>
    intro acc hacc
    rw [List.foldl_cons]
    by_cases hl : m.locked = true
    · simp only [hl, if_true]
      exact ih acc hacc
    · simp only [Bool.not_eq_true] at hl
      simp only [hl, Bool.false_eq_true, if_false]
      exact ih _ (insertInGroup_nonempty acc m.hier_level m hacc)

theorem group_modules_nonempty (ms : List Item) :
    ∀ kv ∈ group_modules ms, kv.2 ≠ [] := by
  rw [group_modules]
  exact group_modules_foldl_nonempty ms [] (fun kv hkv => absurd hkv (by simp))

theorem group_modules_foldl_nodup :
    ∀ (ms : List Item) (acc : Groups),
      (acc.map Prod.fst).Nodup →
      ((ms.foldl
        (fun gs m => if m.locked then gs else insertInGroup gs m.hier_level m) acc).map
          Prod.fst).Nodup := by
  intro ms
  induction ms with
  | nil => intro acc hacc; exact hacc
  | cons m rest ih =>
    intro acc hacc
    rw [List.foldl_cons]
    by_cases hl : m.locked = true
    · simp only [hl, if_true]
      exact ih acc hacc
    · simp only [Bool.not_eq_true] at hl
      simp only [hl, Bool.false_eq_true, if_false]
      refine ih _ ?_
      rw [insertInGroup_keys]
      by_cases hmem : m.hier_level ∈ acc.map Prod.fst
      · rw [if_pos hmem]; exact hacc
      · rw [if_neg hmem]
        rw [List.nodup_append]
        refine ⟨hacc, List.nodup_singleton _, ?_⟩
        intro a ha hb
        rw [List.mem_singleton] at hb
        subst hb
        exact hmem ha

theorem group_modules_keys_nodup (ms : List Item) :
    ((group_modules ms).map Prod.fst).Nodup := by
  rw [group_modules]
  exact group_modules_foldl_nodup ms [] (by simp)

/-! ### Claim C3: locked modules never move -/

theorem filter_locked_map (l : List ModuleData) (dx dy : Int) :
    (l.map (fun m =>
        if m.locked then m else { m with x := m.x + dx, y := m.y + dy })).filter
          (fun m => m.locked) =
      l.filter (fun m => m.locked) := by
  induction l with
  | nil => rfl
  | cons m ms ih =>
    rw [List.map_cons]
    by_cases hl : m.locked = true
    · rw [if_pos hl]
      rw [List.filter_cons, List.filter_cons, ih]
    · simp only [Bool.not_eq_true] at hl
      rw [if_neg (by rw [hl]; simp)]
      rw [List.filter_cons, List.filter_cons, ih]
      have h2 : ({ m with x := m.x + dx, y := m.y + dy } : ModuleData).locked = m.locked := rfl
      rw [h2, hl]
      simp

/-- C3: the mechanisms that keep a locked module's position bit-identical
across a whole `Run` pass: `group_modules` never places a locked module in
any group, `Module.move` and `Module.set_bl_position` are no-ops on a
locked module, every member that `pack` places is unlocked, and any `move`
of any (possibly nested) group leaves the locked leaf modules — data,
position and all — exactly as they were, however the other members move. -/
theorem locked_invariance :
    (∀ (ms : List Item), ∀ kv ∈ group_modules ms, ∀ i ∈ kv.2, i.locked = false) ∧
      (∀ (m : ModuleData) (dx dy : Int), m.locked = true →
        Item.move dx dy (Item.mod m) = Item.mod m) ∧
      (∀ (m : ModuleData) (p : Pt), m.locked = true →
        (Item.mod m).set_bl_position p = Item.mod m) ∧
      (∀ (group out : List Item), pack group = some out → ∀ i ∈ out, i.locked = false) ∧
      ∀ (i : Item) (dx dy : Int),
        (Item.move dx dy i).leaves.filter (fun m => m.locked) =
          i.leaves.filter (fun m => m.locked) := by
  refine ⟨?_, ?_, ?_, ?_, ?_⟩
  · intro ms kv hkv i hi
    exact (group_modules_prop ms kv hkv i hi).1
  · intro m dx dy hl
    rw [Item.move, if_pos hl]
  · intro m p hl
    rw [Item.set_bl_position, if_pos (by rw [Item.locked]; exact hl)]
  · intro group out hpack i hi
    rw [pack] at hpack
    exact @packGo_forall (fun j => j.locked = false)
      (fun j p hj => by
        show (j.set_bl_position p).locked = false
        rw [locked_set_bl]
        exact hj)
      (sortDescArea group) [] [] out hpack
      (fun j _ hj => hj)
      (fun j hj => absurd hj (by simp))
      i hi
  · intro i dx dy
    rw [leaves_move]
    exact filter_locked_map i.leaves dx dy

/-- Witness for C3 on concrete locked modules. -/
theorem locked_invariance_witness :
    (Item.move 3 4 (Item.mod mL) = Item.mod mL) ∧
      (Item.mod mL).set_bl_position (9, 9) = Item.mod mL :=
  ⟨locked_invariance.2.1 mL 3 4 (by decide), locked_invariance.2.2.1 mL (9, 9) (by decide)⟩

/-! ### Claim C9: the placement never reads the reference labels -/

mutual
theorem bbox_strip : ∀ i : Item, (Item.stripRef i).bbox = i.bbox
  | .mod m => rfl
  | .grp ms => by
    rw [Item.stripRef, Item.bbox, Item.bbox, bboxes_strip ms]

theorem bboxes_strip : ∀ ms : ItemList, bboxes (stripRefList ms) = bboxes ms
  | .nil => rfl
  | .cons i is => by
    rw [stripRefList, bboxes, bboxes, bbox_strip i, bboxes_strip is]
end

theorem locked_strip (i : Item) : (Item.stripRef i).locked = i.locked := by
  match i with
  | .mod m => rfl
  | .grp ms => rfl

mutual
theorem strip_move (dx dy : Int) : ∀ i : Item,
    Item.stripRef (Item.move dx dy i) = Item.move dx dy (Item.stripRef i)
  | .mod m => by
    by_cases hl : m.locked = true <;>
      simp [Item.move, Item.stripRef, hl]
  | .grp ms => by
    rw [Item.move, Item.stripRef, Item.stripRef, Item.move, stripList_move dx dy ms]

theorem stripList_move (dx dy : Int) : ∀ ms : ItemList,
    stripRefList (moveList dx dy ms) = moveList dx dy (stripRefList ms)
  | .nil => rfl
  | .cons i is => by
    rw [moveList, stripRefList, stripRefList, moveList,
      strip_move dx dy i, stripList_move dx dy is]
end

theorem strip_set_bl (i : Item) (p : Pt) :
    Item.stripRef (i.set_bl_position p) = (Item.stripRef i).set_bl_position p := by
  rw [Item.set_bl_position, Item.set_bl_position, locked_strip]
  by_cases hl : i.locked = true
  · rw [if_pos hl, if_pos hl]
  · rw [if_neg hl, if_neg hl]
    rw [show (Item.stripRef i).bl_corner = i.bl_corner from by
      rw [Item.bl_corner, Item.bl_corner, bbox_strip]]
    exact strip_move _ _ i

theorem touches_strip (a b : Item) :
    (Item.stripRef a).touches (Item.stripRef b) = a.touches b := by
  rw [Item.touches, Item.touches, bbox_strip, bbox_strip]

theorem area_strip (i : Item) : (Item.stripRef i).area = i.area := by
  rw [Item.area, Item.area, bbox_strip]

theorem insertDesc_strip (x : Item) : ∀ l : List Item,
    insertDesc (Item.stripRef x) (l.map Item.stripRef) = (insertDesc x l).map Item.stripRef := by
  intro l
  induction l with
  | nil => rfl
  | cons y ys ih =>
    rw [List.map_cons, insertDesc, insertDesc, area_strip, area_strip]
    by_cases h : x.area ≥ y.area
    · rw [if_pos h, if_pos h]
      simp
    · rw [if_neg h, if_neg h]
      rw [List.map_cons, ih]

theorem sortDescArea_strip (l : List Item) :
    sortDescArea (l.map Item.stripRef) = (sortDescArea l).map Item.stripRef := by
  induction l with
  | nil => rfl
  | cons x xs ih =>
    rw [List.map_cons,
      show sortDescArea (Item.stripRef x :: List.map Item.stripRef xs) =
        insertDesc (Item.stripRef x) (sortDescArea (List.map Item.stripRef xs)) from rfl,
      ih,
      show sortDescArea (x :: xs) = insertDesc x (sortDescArea xs) from rfl,
      insertDesc_strip]

theorem packedBbox_strip (l : List Item) :
    packedBbox (l.map Item.stripRef) = packedBbox l := by
  rw [packedBbox, packedBbox, List.map_map]
  congr 1
  apply List.map_congr_left
  intro i _
  exact bbox_strip i

theorem packSize_strip (l : List Item) :
    packSize (l.map Item.stripRef) = packSize l := by
  rw [packSize, packSize, packedBbox_strip]

theorem evalPts_strip (packed : List Item) : ∀ (pts : List Pt) (m : Item) (acc : Option (Pt × Int)),
    evalPts (packed.map Item.stripRef) (Item.stripRef m) pts acc =
      (Item.stripRef (evalPts packed m pts acc).1, (evalPts packed m pts acc).2) := by
  intro pts
  induction pts with
  | nil => intro m acc; rfl
  | cons pt rest ih =>
    intro m acc
    rw [evalPts, evalPts]
    rw [show (Item.stripRef m).set_bl_position pt = Item.stripRef (m.set_bl_position pt) from
      (strip_set_bl m pt).symm]
    have hany : (packed.map Item.stripRef).any
        (fun pm => (Item.stripRef (m.set_bl_position pt)).touches pm) =
        packed.any (fun pm => (m.set_bl_position pt).touches pm) := by
      rw [List.any_map]
      congr 1
      funext pm
      show (Item.stripRef (m.set_bl_position pt)).touches (Item.stripRef pm) =
        (m.set_bl_position pt).touches pm
      exact touches_strip _ pm
    rw [hany]
    by_cases hc : packed.any (fun pm => (m.set_bl_position pt).touches pm) = true
    · rw [if_pos hc, if_pos hc]
      exact ih (m.set_bl_position pt) acc
    · rw [if_neg hc, if_neg hc]
      rw [show (packed.map Item.stripRef) ++ [Item.stripRef (m.set_bl_position pt)] =
        (packed ++ [m.set_bl_position pt]).map Item.stripRef from by simp]
      rw [packSize_strip]
      exact ih (m.set_bl_position pt) _

theorem corners_strip (i : Item) :
    (Item.stripRef i).tl_corner = i.tl_corner ∧ (Item.stripRef i).br_corner = i.br_corner := by
  rw [Item.tl_corner, Item.tl_corner, Item.br_corner, Item.br_corner, bbox_strip]
  exact ⟨rfl, rfl⟩

theorem packGo_strip : ∀ (ms packed : List Item) (pts : List Pt),
    packGo (ms.map Item.stripRef) (packed.map Item.stripRef) pts =
      (packGo ms packed pts).map (List.map Item.stripRef) := by
  intro ms
  induction ms with
  | nil => intro packed pts; rfl
  | cons m rest ih =>
    intro packed pts
    rw [List.map_cons, packGo_cons, packGo_cons, locked_strip]
    by_cases hl : m.locked = true
    · rw [if_pos hl, if_pos hl]
      exact ih packed pts
    · rw [if_neg hl, if_neg hl]
      match pts with
      | [] =>
        rw [(corners_strip m).1, (corners_strip m).2]
        rw [show (packed.map Item.stripRef) ++ [Item.stripRef m] =
          (packed ++ [m]).map Item.stripRef from by simp]
        exact ih (packed ++ [m]) [m.tl_corner, m.br_corner]
      | pt :: pts' =>
        rw [evalPts_strip packed (pt :: pts') m none]
        rcases hE : evalPts packed m (pt :: pts') none with ⟨mt, acc⟩
        rcases acc with _ | ⟨q, s⟩
        · rfl
        · simp only []
          rw [show (Item.stripRef mt).set_bl_position q = Item.stripRef (mt.set_bl_position q) from
            (strip_set_bl mt q).symm]
          rw [(corners_strip (mt.set_bl_position q)).1, (corners_strip (mt.set_bl_position q)).2]
          rw [show (packed.map Item.stripRef) ++ [Item.stripRef (mt.set_bl_position q)] =
            (packed ++ [mt.set_bl_position q]).map Item.stripRef from by simp]
          exact ih _ _

theorem pack_strip (g : List Item) :
    pack (g.map Item.stripRef) = (pack g).map (List.map Item.stripRef) := by
  rw [pack, pack, sortDescArea_strip]
  rw [show ([] : List Item) = ([] : List Item).map Item.stripRef from rfl]
  exact packGo_strip (sortDescArea g) [] []

/-- C9: the placement is deterministic and independent of everything but
the data the spec lists.  If two input sequences agree on hierarchy paths,
initial positions, footprint sizes, selection and lock flags — that is,
they agree after erasing the reference labels, the only field `pack` never
reads — then the two runs produce the same final positions for every
member. -/
theorem pack_deterministic (g1 g2 : List Item)
    (h : g1.map Item.stripRef = g2.map Item.stripRef) :
    (pack g1).map (List.map Item.stripRef) = (pack g2).map (List.map Item.stripRef) := by
  rw [← pack_strip g1, ← pack_strip g2, h]

/-- Witness for C9: the concrete board against its relabeled copy. -/
theorem pack_deterministic_witness :
    (pack demoGroup).map (List.map Item.stripRef) =
      (pack demoGroupRelabeled).map (List.map Item.stripRef) :=
  pack_deterministic demoGroup demoGroupRelabeled rfl

/-! ### Claim C4: the Run loop converges within the hierarchy depth -/

theorem packAll_cons (k : HierKey) (v : List Item) (rest : Groups) :
    packAll ((k, v) :: rest) =
      match pack v, packAll rest with
      | some v2, some rest2 => some ((k, v2) :: rest2)
      | _, _ => none := by
  rw [packAll.eq_def]

theorem packAll_spec : ∀ (gs gs2 : Groups), packAll gs = some gs2 →
    gs2.map Prod.fst = gs.map Prod.fst ∧
      ∀ kv2 ∈ gs2, ∃ kv ∈ gs, kv2.1 = kv.1 ∧ pack kv.2 = some kv2.2 := by
  intro gs
  induction gs with
  | nil =>
    intro gs2 h
    rw [packAll] at h
    injection h with h
    subst h
    exact ⟨rfl, by simp⟩
  | cons hd tl ih =>
    rcases hd with ⟨k, v⟩
    intro gs2 h
    rw [packAll_cons] at h
    cases hp : pack v with
    | none => rw [hp] at h; exact Option.noConfusion h
    | some v2 =>
      rw [hp] at h
      cases hq : packAll tl with
      | none => rw [hq] at h; exact Option.noConfusion h
      | some rest2 =>
        rw [hq] at h
        injection h with h
        subst h
        obtain ⟨hkeys, hvals⟩ := ih rest2 hq
        constructor
        · rw [List.map_cons, List.map_cons, hkeys]
        · intro kv2 hkv2
          rcases List.mem_cons.mp hkv2 with rfl | htl
          · exact ⟨(k, v), List.mem_cons_self _ _, rfl, hp⟩
          · obtain ⟨kv, hkv, h1, h2⟩ := hvals kv2 htl
            exact ⟨kv, List.mem_cons_of_mem _ hkv, h1, h2⟩

theorem pack_member_prop (k : HierKey) (v out : List Item) (hp : pack v = some out)
    (hv : ∀ i ∈ v, i.locked = false ∧ i.hier_level = k) :
    ∀ i ∈ out, i.locked = false ∧ i.hier_level = k := by
  rw [pack] at hp
  exact @packGo_forall (fun i => i.locked = false ∧ i.hier_level = k)
    (fun i p hi => by
      show (i.set_bl_position p).locked = false ∧ (i.set_bl_position p).hier_level = k
      rw [locked_set_bl, hier_level_set_bl]
      exact hi)
    _ [] [] out hp
    (fun i hi _ => hv i ((mem_sortDescArea i v).mp hi))
    (fun i hi => absurd hi (by simp))

theorem pack_nonempty (v out : List Item) (hp : pack v = some out) (hne : v ≠ [])
    (hunlocked : ∀ i ∈ v, i.locked = false) : out ≠ [] := by
  rw [pack] at hp
  refine packGo_ne_nil _ [] [] out hp (Or.inr ?_)
  match v, hne with
  | x :: xs, _ =>
    exact ⟨x, (mem_sortDescArea x (x :: xs)).mpr (List.mem_cons_self x xs),
      hunlocked x (List.mem_cons_self x xs)⟩

theorem hier_grp_ofList (x : Item) (xs : List Item) :
    (Item.grp (ItemList.ofList (x :: xs))).hier_level = x.hier_level.dropLast := rfl

theorem regroup_keys (gs2 : Groups)
    (hne : ∀ kv ∈ gs2, kv.2 ≠ [])
    (hprop : ∀ kv ∈ gs2, ∀ i ∈ kv.2, i.hier_level = kv.1) :
    ∀ kv2 ∈ group_modules (regroupItems gs2), ∃ kv ∈ gs2, kv2.1 = kv.1.dropLast := by
  intro kv2 hkv2
  have hval := group_modules_nonempty (regroupItems gs2) kv2 hkv2
  match hv2 : kv2.2, hval with
  | j :: _, _ =>
    have hj := group_modules_prop (regroupItems gs2) kv2 hkv2 j
      (by rw [hv2]; exact List.mem_cons_self _ _)
    obtain ⟨kv, hkv, hgrp⟩ := List.mem_map.mp hj.2.2
    refine ⟨kv, hkv, ?_⟩
    rw [← hj.2.1, ← hgrp]
    match hvv : kv.2, hne kv hkv with
    | x :: xs, _ =>
      rw [hier_grp_ofList x xs]
      rw [hprop kv hkv x (by rw [hvv]; exact List.mem_cons_self _ _)]

theorem le_maxKeyLen (gs : Groups) (kv : HierKey × List Item) (h : kv ∈ gs) :
    kv.1.length ≤ maxKeyLen gs := by
  induction gs with
  | nil => exact absurd h (by simp)
  | cons hd tl ih =>
    rw [maxKeyLen, List.map_cons, List.foldr_cons]
    rcases List.mem_cons.mp h with rfl | htl
    · omega
    · have := ih htl
      rw [maxKeyLen] at this
      omega

theorem maxKeyLen_le (gs : Groups) (n : Nat) (h : ∀ kv ∈ gs, kv.1.length ≤ n) :
    maxKeyLen gs ≤ n := by
  induction gs with
  | nil =>
    rw [maxKeyLen]
    simp
  | cons hd tl ih =>
    rw [maxKeyLen, List.map_cons, List.foldr_cons]
    have h1 := h hd (List.mem_cons_self _ _)
    have h2 : (tl.map (fun kv => kv.1.length)).foldr max 0 ≤ n := by
      have := ih (fun kv hkv => h kv (List.mem_cons_of_mem _ hkv))
      rw [maxKeyLen] at this
      exact this
    omega

theorem keys_nil_length (gs : Groups) (hnd : (gs.map Prod.fst).Nodup)
    (hall : ∀ kv ∈ gs, kv.1 = []) : gs.length ≤ 1 := by
  match gs with
  | [] => simp
  | [x] => simp
  | x :: y :: rest =>
    exfalso
    rw [List.map_cons, List.map_cons, List.nodup_cons] at hnd
    apply hnd.1
    rw [hall x (List.mem_cons_self _ _),
      hall y (List.mem_cons_of_mem _ (List.mem_cons_self _ _))]
    exact List.mem_cons_self _ _

theorem runLoop_succ (n : Nat) (gs : Groups) :
    runLoop (n + 1) gs =
      match packAll gs with
      | none => RunResult.crashed
      | some gs2 =>
        if gs2.length ≤ 1 then RunResult.done gs2
        else runLoop n (group_modules (regroupItems gs2)) := rfl

theorem runLoop_stops : ∀ (n : Nat) (gs : Groups),
    (gs.map Prod.fst).Nodup →
    (∀ kv ∈ gs, kv.2 ≠ []) →
    (∀ kv ∈ gs, ∀ i ∈ kv.2, i.locked = false ∧ i.hier_level = kv.1) →
    maxKeyLen gs ≤ n →
    (runLoop (n + 1) gs).stopped = true := by
  intro n
  induction n with
  | zero =>
    intro gs hnd hne hprop hmax
    rw [runLoop_succ]
    cases hPA : packAll gs with
    | none => rfl
    | some gs2 =>
      have hkeys := (packAll_spec gs gs2 hPA).1
      by_cases hlen : gs2.length ≤ 1
      · show (if gs2.length ≤ 1 then RunResult.done gs2
            else runLoop 0 (group_modules (regroupItems gs2))).stopped = true
        rw [if_pos hlen]
        rfl
      · exfalso
        have hall : ∀ kv ∈ gs2, kv.1 = [] := by
          intro kv hkv
          have h1 : kv.1 ∈ gs2.map Prod.fst := List.mem_map_of_mem _ hkv
          rw [hkeys] at h1
          obtain ⟨kv0, hkv0, hfst⟩ := List.mem_map.mp h1
          have h2 := le_maxKeyLen gs kv0 hkv0
          have h3 : kv0.1.length = 0 := by omega
          rw [← hfst]
          exact List.length_eq_zero.mp h3
        have hnd2 : (gs2.map Prod.fst).Nodup := by rw [hkeys]; exact hnd
        exact hlen (keys_nil_length gs2 hnd2 hall)
  | succ m ih =>
    intro gs hnd hne hprop hmax
    rw [runLoop_succ]
    cases hPA : packAll gs with
    | none => rfl
    | some gs2 =>
      by_cases hlen : gs2.length ≤ 1
      · show (if gs2.length ≤ 1 then RunResult.done gs2
            else runLoop (m + 1) (group_modules (regroupItems gs2))).stopped = true
        rw [if_pos hlen]
        rfl
      · show (if gs2.length ≤ 1 then RunResult.done gs2
            else runLoop (m + 1) (group_modules (regroupItems gs2))).stopped = true
        rw [if_neg hlen]
        have hspec := packAll_spec gs gs2 hPA
        have hprop2 : ∀ kv ∈ gs2, ∀ i ∈ kv.2, i.locked = false ∧ i.hier_level = kv.1 := by
          intro kv hkv
          obtain ⟨kv0, hkv0, hk, hp⟩ := hspec.2 kv hkv
          intro i hi
          have h1 := pack_member_prop kv0.1 kv0.2 kv.2 hp (hprop kv0 hkv0) i hi
          rw [hk]
          exact h1
        have hne2 : ∀ kv ∈ gs2, kv.2 ≠ [] := by
          intro kv hkv
          obtain ⟨kv0, hkv0, hk, hp⟩ := hspec.2 kv hkv
          exact pack_nonempty kv0.2 kv.2 hp (hne kv0 hkv0)
            (fun i hi => (hprop kv0 hkv0 i hi).1)
        have hkeysub := regroup_keys gs2 hne2 (fun kv hkv i hi => (hprop2 kv hkv i hi).2)
        have hmax2 : maxKeyLen (group_modules (regroupItems gs2)) ≤ m := by
          apply maxKeyLen_le
          intro kv2 hkv2
          obtain ⟨kv, hkv, hEq⟩ := hkeysub kv2 hkv2
          rw [hEq]
          have h1 : kv.1.length ≤ maxKeyLen gs2 := le_maxKeyLen gs2 kv hkv
          have h2 : maxKeyLen gs2 = maxKeyLen gs := by
            rw [maxKeyLen, maxKeyLen]
            have e1 : gs2.map (fun kv => kv.1.length) = (gs2.map Prod.fst).map List.length := by
              rw [List.map_map]
              rfl
            have e2 : gs.map (fun kv => kv.1.length) = (gs.map Prod.fst).map List.length := by
              rw [List.map_map]
              rfl
            rw [e1, e2, hspec.1]
          rw [List.length_dropLast]
          omega
        exact ih (group_modules (regroupItems gs2))
          (group_modules_keys_nodup (regroupItems gs2))
          (group_modules_nonempty (regroupItems gs2))
          (fun kv hkv i hi =>
            ⟨(group_modules_prop (regroupItems gs2) kv hkv i hi).1,
             (group_modules_prop (regroupItems gs2) kv hkv i hi).2.1⟩)
          hmax2

/-- C4: the orchestrator loop terminates.  Starting from the groups of any
item list, each regrouping pass shortens every hierarchy key by one
segment, so with fuel `depth + 1` — `depth` being the longest hierarchy key
of the initial grouping — the `Run` loop always stops on its own (reaching
at most one group, or stopping on the crash path of `pack`): it never
exhausts the fuel. -/
theorem run_converges (items : List Item) :
    (runLoop (maxKeyLen (group_modules items) + 1) (group_modules items)).stopped = true :=
  runLoop_stops (maxKeyLen (group_modules items)) (group_modules items)
    (group_modules_keys_nodup items)
    (group_modules_nonempty items)
    (fun kv hkv i hi =>
      ⟨(group_modules_prop items kv hkv i hi).1,
       (group_modules_prop items kv hkv i hi).2.1⟩)
    le_rfl

/-- Witness for C4 on the concrete two-module board. -/
theorem run_converges_witness :
    (runLoop (maxKeyLen (group_modules demoGroup) + 1) (group_modules demoGroup)).stopped = true :=
  run_converges demoGroup
